import Mathlib

/-!
Verification development for `scripts/update-postgres-versions.py`.

The script is embedded shallowly: file contents are `List Char`, the
upstream release listing is a list of tag strings, the repository is an
explicit record of file contents, and each regex-based rewrite is a
deterministic matcher (all the regexes in the script have forced extents,
so no backtracking search is needed) driven by a leftmost scan-and-replace
loop mirroring `re.sub`.

Modelling notes (restrictions of the embedding, none of which affect the
claims settled here):
* `int(...)` is modelled for an optional sign followed by ASCII digits;
  Python's tolerance for surrounding whitespace and underscores between
  digits is not modelled.
* `str.isdigit` and `\d` are modelled as ASCII digits.
* `\s` is modelled as the six ASCII whitespace characters.
* replacement-string escape processing of `re.sub` is not modelled; all
  concrete versions used in theorems and counterexamples are free of
  backslashes, where the two agree.
-/

namespace PgUpdate

/-- File contents and tag strings are lists of characters. -/
abbrev Str := List Char

/-- Python `\s` (ASCII): space, tab, newline, carriage return, vertical tab, form feed. -/
def isPySpace (c : Char) : Bool :=
  c = ' ' || c = '\t' || c = '\n' || c = '\r' || c = '\x0b' || c = '\x0c'

/-- Digit or dot, the character class `[\d\.]` of the mise.toml pattern. -/
def isDD (c : Char) : Bool := c.isDigit || c = '.'

/-! ### Tag parsing (`fetch_available_versions` and `_version_tuple`) -/

/-- `version.split(".")` on character lists: split at every dot, keeping empty pieces. -/
def splitOnDot : Str → List Str
  | [] => [[]]
  | c :: cs =>
    match splitOnDot cs with
    | [] => [[]]
    | p :: ps => if c = '.' then [] :: p :: ps else (c :: p) :: ps

/-- Numeric value of a digit string. -/
def digitsToNat (s : Str) : Nat := s.foldl (fun a c => 10 * a + (c.toNat - '0'.toNat)) 0

/-- Model of Python `int(...)` on a tag component: optional sign, then ASCII digits. -/
def pyInt : Str → Option Int
  | [] => none
  | '-' :: ds => if ds ≠ [] && ds.all Char.isDigit then some (-(digitsToNat ds : Int)) else none
  | '+' :: ds => if ds ≠ [] && ds.all Char.isDigit then some (digitsToNat ds : Int) else none
  | ds => if ds.all Char.isDigit then some (digitsToNat ds : Int) else none

/-- Python `str.isdigit`: nonempty and all digits. -/
def pyIsDigit (s : Str) : Bool := !s.isEmpty && s.all Char.isDigit

/-- `_version_tuple`: numeric values of the dot-components that are all digits. -/
def versionTuple (v : Str) : List Nat :=
  (splitOnDot v).filterMap fun p => if pyIsDigit p then some (digitsToNat p) else none

/-- Python tuple comparison `a > b`: lexicographic, longer wins on equal prefix. -/
def tupGT : List Nat → List Nat → Bool
  | [], _ => false
  | _ :: _, [] => true
  | a :: as, b :: bs => if b < a then true else if a < b then false else tupGT as bs

/-- The catalog `latest_by_major`: an association list standing for a Python dict
(first occurrence of a key wins on lookup; keys stay unique by construction). -/
abbrev Catalog := List (Int × Str)

/-- Python dict assignment `d[k] = v`: replace in place, else append. -/
def setKey : Catalog → Int → Str → Catalog
  | [], k, v => [(k, v)]
  | (k', v') :: rest, k, v =>
    if k' = k then (k, v) :: rest else (k', v') :: setKey rest k v

def MIN_MAJOR_VERSION : Int := 13
def NUM_SUPPORTED_VERSIONS : Nat := 5

/-- The validity gate of the fetch loop: nonempty tag, at least two dot-components,
leading component parses as an integer.  Returns the parsed major. -/
def tagMajor (t : Str) : Option Int :=
  if t = [] then none
  else
    let parts := splitOnDot t
    if parts.length < 2 then none
    else
      match parts with
      | [] => none
      | p :: _ => pyInt p

/-- One iteration of the `for release in releases` loop of `fetch_available_versions`. -/
def processTag (cat : Catalog) (t : Str) : Catalog :=
  match tagMajor t with
  | none => cat
  | some major =>
    if major < MIN_MAJOR_VERSION then cat
    else
      match List.lookup major cat with
      | none => setKey cat major t
      | some cur => if tupGT (versionTuple t) (versionTuple cur) then setKey cat major t else cat

/-- The pure part of `fetch_available_versions`: the catalog built from the tag list. -/
def fetchCatalog (tags : List Str) : Catalog := tags.foldl processTag []

/-! ### The selector (`get_recommended_versions`) -/

/-- `sorted(keys, reverse=True)`. -/
def sortMajorsDesc (ks : List Int) : List Int := List.insertionSort (fun a b => b ≤ a) ks

/-- `available[m]` for a key known to be present (default `[]` is never reached there). -/
def dictGet (cat : Catalog) (k : Int) : Str := (List.lookup k cat).getD []

/-- The recommendation dict, keys `"newest"`/`"oldest"`. -/
abbrev VDict := List (String × Str)

def dget (d : VDict) (k : String) : Str := (List.lookup k d).getD []

/-- `available[m] if m else ""` — Python truthiness: `None` and `0` both give `""`. -/
def pyTruthyGet (available : Catalog) (k : Option Int) : Str :=
  match k with
  | none => []
  | some m => if m = 0 then [] else dictGet available m

/-- `get_recommended_versions`.  The two branches of the source compute the same
`head?`/`getLast?` pair; the `if` is kept to mirror the source. -/
def get_recommended_versions (available : Catalog) : VDict :=
  let supported_majors := (sortMajorsDesc (available.map Prod.fst)).take NUM_SUPPORTED_VERSIONS
  let no : Option Int × Option Int :=
    if supported_majors.length < 2 then
      (supported_majors.head?, supported_majors.getLast?)
    else
      (supported_majors.head?, supported_majors.getLast?)
  [("newest", pyTruthyGet available no.1), ("oldest", pyTruthyGet available no.2)]

/-! ### The patch engine

Each regex of the script has a forced extent (every quantifier is bounded by a
character that its class excludes), so matching at a position is deterministic.
A matcher returns `(matched, replacement, rest)`; `scanSub` is `re.sub`'s
leftmost scan-and-replace loop. -/

/-- Strip an expected literal prefix. -/
def stripPrefixL : Str → Str → Option Str
  | [], s => some s
  | _ :: _, [] => none
  | a :: as, b :: bs => if a = b then stripPrefixL as bs else none

/-- Maximal digit run and what follows. -/
def takeDigs (s : Str) : Str × Str := (s.takeWhile Char.isDigit, s.dropWhile Char.isDigit)

/-- `\d+\.\d+\.\d+` with greedy (maximal) digit runs: the matched span and the rest. -/
def parse3 (s : Str) : Option (Str × Str) :=
  let (d1, r1) := takeDigs s
  if d1 = [] then none else
  match r1 with
  | '.' :: r2 =>
    let (d2, r3) := takeDigs r2
    if d2 = [] then none else
    match r3 with
    | '.' :: r4 =>
      let (d3, r5) := takeDigs r4
      if d3 = [] then none else some (d1 ++ '.' :: d2 ++ '.' :: d3, r5)
    | _ => none
  | _ => none

/-- `lit` + `\d+\.\d+\.\d+` → `lit` + `old`.  Covers both the
`postgres-binary:postgres@…` rewrite of ci.yml and the `POSTGRES_VERSION=…`
rewrite of the Dockerfiles. -/
def matchVer (lit old : Str) (s : Str) : Option (Str × Str × Str) :=
  match stripPrefixL lit s with
  | none => none
  | some u =>
    match parse3 u with
    | none => none
    | some (m3, rest) => some (lit ++ m3, lit ++ old, rest)

def litPgv : Str := "pg_version:".toList
def litPgAt : Str := "postgres-binary:postgres@".toList
def litBake : Str := "variable \"PG_VERSIONS\" \x7b".toList
def litMise : Str := "VERSIONS=(".toList
def litDock : Str := "POSTGRES_VERSION=".toList

/-- `f'"{newest}", "{oldest}"'`. -/
def vstr (n o : Str) : Str := '"' :: n ++ '"' :: ',' :: ' ' :: '"' :: o ++ ['"']

/-- The post-literal shape of `(pg_version:\s*\[)[^\]]+(\])`: maximal
whitespace, `[`, a nonempty run of non-`]`, then `]`.  Returns the captured
whitespace, the bracket body, and the rest. -/
def ci1Shape (u : Str) : Option (Str × Str × Str) :=
  let ws := u.takeWhile isPySpace
  match u.dropWhile isPySpace with
  | '[' :: w =>
    let body := w.takeWhile (fun c => c ≠ ']')
    if body = [] then none else
    match w.dropWhile (fun c => c ≠ ']') with
    | ']' :: rest => some (ws, body, rest)
    | _ => none
  | _ => none

/-- `(pg_version:\s*\[)[^\]]+(\])` → `\g<1>` + vstr + `\g<2>`. -/
def matchCi1 (n o : Str) (s : Str) : Option (Str × Str × Str) :=
  match stripPrefixL litPgv s with
  | none => none
  | some u =>
    match ci1Shape u with
    | none => none
    | some (ws, body, rest) =>
      some (litPgv ++ ws ++ '[' :: body ++ [']'],
            litPgv ++ ws ++ '[' :: vstr n o ++ [']'], rest)

/-- `versions["newest"].split(".")[0]`: the leading dot-component. -/
def majorPart (v : Str) : Str := v.takeWhile (fun c => c ≠ '.')

/-- The regenerated `variable "PG_VERSIONS"` block (oldest line first). -/
def bakeBlock (n o : Str) : Str :=
  "variable \"PG_VERSIONS\" \x7b\n  default = \x7b\n    pg".toList ++ majorPart o ++
  " = \"".toList ++ o ++ "\"\n    pg".toList ++ majorPart n ++
  " = \"".toList ++ n ++ "\"\n  \x7d\n\x7d".toList

/-- The part of `bakeBlock` between the literal and its first `}`. -/
def bakeB1 (n o : Str) : Str :=
  "\n  default = \x7b\n    pg".toList ++ majorPart o ++ " = \"".toList ++ o ++
  "\"\n    pg".toList ++ majorPart n ++ " = \"".toList ++ n ++ "\"\n  ".toList

/-- The post-literal shape of `\{[^}]+\}[^}]*\}` (the leading `{` is part of
the literal): a nonempty run of non-`}`, `}`, a run of non-`}`, then `}`. -/
def bakeShape (u : Str) : Option (Str × Str × Str) :=
  let b1 := u.takeWhile (fun c => c ≠ '}')
  if b1 = [] then none else
  match u.dropWhile (fun c => c ≠ '}') with
  | '}' :: w =>
    let b2 := w.takeWhile (fun c => c ≠ '}')
    match w.dropWhile (fun c => c ≠ '}') with
    | '}' :: rest => some (b1, b2, rest)
    | _ => none
  | _ => none

/-- `variable "PG_VERSIONS" \{[^}]+\}[^}]*\}` → regenerated block. -/
def matchBake (n o : Str) (s : Str) : Option (Str × Str × Str) :=
  match stripPrefixL litBake s with
  | none => none
  | some u =>
    match bakeShape u with
    | none => none
    | some (b1, b2, rest) =>
      some (litBake ++ b1 ++ '}' :: b2 ++ ['}'], bakeBlock n o, rest)

/-- `f'VERSIONS=("{oldest}" "{newest}")'` (oldest first). -/
def miseRepl (n o : Str) : Str := litMise ++ '"' :: o ++ '"' :: ' ' :: '"' :: n ++ ['"', ')']

/-- The post-literal shape of `"[\d\.]+" "[\d\.]+"\s*(?:"[\d\.]+")?\)`:
after the maximal `\s*`, a `)` closes the two-element form; a quoted third
item must be followed directly by `)` (Python's backtracking admits nothing
else, as every other shrinking step lands on a character the next piece of
the pattern excludes).  Returns the matched span and the rest. -/
def miseShape (u : Str) : Option (Str × Str) :=
  match u with
  | '"' :: u1 =>
    let d1 := u1.takeWhile isDD
    if d1 = [] then none else
    match u1.dropWhile isDD with
    | '"' :: ' ' :: '"' :: u2 =>
      let d2 := u2.takeWhile isDD
      if d2 = [] then none else
      match u2.dropWhile isDD with
      | '"' :: u3 =>
        let ws := u3.takeWhile isPySpace
        match u3.dropWhile isPySpace with
        | ')' :: rest =>
          some ('"' :: d1 ++ '"' :: ' ' :: '"' :: d2 ++ '"' :: ws ++ [')'], rest)
        | '"' :: u4 =>
          let d3 := u4.takeWhile isDD
          if d3 = [] then none else
          match u4.dropWhile isDD with
          | '"' :: ')' :: rest =>
            some ('"' :: d1 ++ '"' :: ' ' :: '"' :: d2 ++ '"' :: ws ++
                    '"' :: d3 ++ ['"', ')'], rest)
          | _ => none
        | _ => none
      | _ => none
    | _ => none
  | _ => none

/-- The characters a `miseShape` match can contain. -/
def miseChar (c : Char) : Bool := c = '"' || isDD c || isPySpace c || c = ')'

/-- The anatomy of a successful `miseShape` match. -/
def MiseDecomp (mu : Str) : Prop :=
  ∃ d1 d2 ws tail3 : Str,
    d1 ≠ [] ∧ d2 ≠ [] ∧ (∀ c ∈ d1, isDD c = true) ∧ (∀ c ∈ d2, isDD c = true) ∧
    (∀ c ∈ ws, isPySpace c = true) ∧
    mu = '"' :: d1 ++ '"' :: ' ' :: '"' :: d2 ++ '"' :: ws ++ tail3 ∧
    (tail3 = [')'] ∨
      ∃ d3 : Str, d3 ≠ [] ∧ (∀ c ∈ d3, isDD c = true) ∧ tail3 = '"' :: d3 ++ ['"', ')'])

/-- `VERSIONS=\("[\d\.]+" "[\d\.]+"\s*(?:"[\d\.]+")?\)` → `miseRepl`. -/
def matchMise (n o : Str) (s : Str) : Option (Str × Str × Str) :=
  match stripPrefixL litMise s with
  | none => none
  | some u =>
    match miseShape u with
    | none => none
    | some (mu, rest) => some (litMise ++ mu, miseRepl n o, rest)

/-- Fuelled scan-and-replace; fuel `≥ length` suffices since matches are nonempty. -/
def scanF (M : Str → Option (Str × Str × Str)) : Nat → Str → Str
  | 0, s => s
  | _ + 1, [] => []
  | n + 1, c :: cs =>
    match M (c :: cs) with
    | some (_, r, t) => r ++ scanF M n t
    | none => c :: scanF M n cs

/-- `re.sub(pattern, repl, s)` for a forced-extent matcher. -/
def scanSub (M : Str → Option (Str × Str × Str)) (s : Str) : Str := scanF M s.length s

/-! ### Notions used by the idempotence development -/

/-- `p` is an initial segment of `s`. -/
def IsPre (p s : Str) : Prop := ∃ t, p ++ t = s

/-- Boolean initial-segment check, for `decide`-able facts about literals. -/
def isPreB : Str → Str → Bool
  | [], _ => true
  | _ :: _, [] => false
  | a :: as, b :: bs => a = b && isPreB as bs

/-- Well-formedness of a matcher: a match splits its input and is nonempty. -/
def WF (M : Str → Option (Str × Str × Str)) : Prop :=
  ∀ s m r t, M s = some (m, r, t) → s = m ++ t ∧ m ≠ []

/-- Strings on which a scan pass is the identity, witnessed step by step:
each position either does not match or matches its own replacement exactly. -/
inductive StableT (M : Str → Option (Str × Str × Str)) : Str → Prop
  | nil : StableT M []
  | skip (c : Char) (ds : Str) : M (c :: ds) = none → StableT M ds → StableT M (c :: ds)
  | hit (r ds : Str) : M (r ++ ds) = some (r, r, ds) → r ≠ [] → StableT M ds →
      StableT M (r ++ ds)

/-- The tail left by a greedy `\d+` never starts with a digit. -/
def NoDigHead (u : Str) : Prop := ∀ c, u.head? = some c → c.isDigit = false

/-- A version made only of digits and dots, nonempty. -/
def DigitDot (v : Str) : Prop := v ≠ [] ∧ ∀ c ∈ v, isDD c = true

/-- A version of exactly the shape `\d+\.\d+\.\d+`. -/
def Triple (o : Str) : Prop := parse3 o = some (o, [])

/-- The recommendation dict built from two versions. -/
def recDict (n o : Str) : VDict := [("newest", n), ("oldest", o)]

/-! ### The four file rewrites -/

def update_ci_workflow (versions : VDict) (content : Str) : Bool × Str :=
  let n := dget versions "newest"
  let o := dget versions "oldest"
  let c1 := scanSub (matchCi1 n o) content
  let c2 := scanSub (matchVer litPgAt o) c1
  (decide (c2 ≠ content), c2)

def update_docker_bake (versions : VDict) (content : Str) : Bool × Str :=
  let c' := scanSub (matchBake (dget versions "newest") (dget versions "oldest")) content
  (decide (c' ≠ content), c')

def update_mise_toml (versions : VDict) (content : Str) : Bool × Str :=
  let c' := scanSub (matchMise (dget versions "newest") (dget versions "oldest")) content
  (decide (c' ≠ content), c')

def update_dockerfiles (versions : VDict) (files : List Str) : Bool × List Str :=
  let M := matchVer litDock (dget versions "oldest")
  (files.any fun f => decide (scanSub M f ≠ f), files.map (scanSub M))

/-! ### The driver (`main`) -/

/-- The repository files the script touches. -/
structure RepoState where
  versionsJson : Option VDict
  ci : Str
  bake : Str
  mise : Str
  dockerfiles : List Str
deriving DecidableEq

/-- `read_versions_file`: default empty record when the file is absent. -/
def read_versions_file (st : RepoState) : VDict :=
  match st.versionsJson with
  | none => [("newest", []), ("oldest", [])]
  | some d => d

/-- Python `==` on dicts: same keys with the same values, order-independent. -/
def dictBEq (a b : VDict) : Bool :=
  ((a.map Prod.fst) ++ (b.map Prod.fst)).all fun k => List.lookup k a == List.lookup k b

structure RunResult where
  exitCode : Nat
  state : RepoState
  outputs : List (String × Str)
  writes : List String
deriving DecidableEq

/-- `main`, from the point where the catalog has been fetched: the `--check` /
`--apply` flags, the catalog, and the repository state determine the exit code,
the new state, the `GITHUB_OUTPUT` lines, and which files were written. -/
def mainModel (check apply : Bool) (available : Catalog) (st : RepoState) : RunResult :=
  if available = [] then ⟨1, st, [], []⟩
  else
    let recommended := get_recommended_versions available
    let current := read_versions_file st
    if dictBEq recommended current then
      ⟨0, st, [("updated", "false".toList)], []⟩
    else if check then
      ⟨0, st,
        [("updated", "true".toList), ("newest_version", dget recommended "newest"),
         ("oldest_version", dget recommended "oldest")], []⟩
    else if apply then
      let (b1, ci') := update_ci_workflow recommended st.ci
      let (b2, bake') := update_docker_bake recommended st.bake
      let (b3, mise') := update_mise_toml recommended st.mise
      let (b4, dfs') := update_dockerfiles recommended st.dockerfiles
      ⟨0, ⟨some recommended, ci', bake', mise', dfs'⟩,
        [("updated", "true".toList), ("newest_version", dget recommended "newest"),
         ("oldest_version", dget recommended "oldest")],
        [".versions.json"] ++ (if b1 then [".github/workflows/ci.yml"] else []) ++
          (if b2 then ["docker/docker-bake.hcl"] else []) ++
          (if b3 then ["mise.toml"] else []) ++
          (if b4 then ["docker/Dockerfile.*"] else [])⟩
    else
      ⟨0, st, [], []⟩

/-! ## Helper lemmas: the catalog as a dict -/

theorem lookup_cons_self (k : Int) (v : Str) (l : Catalog) :
    List.lookup k ((k, v) :: l) = some v := by
  simp [List.lookup]

theorem lookup_cons_ne (k a : Int) (b : Str) (l : Catalog) (h : k ≠ a) :
    List.lookup k ((a, b) :: l) = List.lookup k l := by
  simp [List.lookup, beq_eq_false_iff_ne.2 h]

theorem lookup_setKey (cat : Catalog) (k : Int) (v : Str) (k' : Int) :
    List.lookup k' (setKey cat k v) = if k' = k then some v else List.lookup k' cat := by
  induction cat with
  | nil =>
    by_cases h : k' = k
    · simp [setKey, h, lookup_cons_self]
    · rw [show setKey [] k v = [(k, v)] from rfl, lookup_cons_ne _ _ _ _ h, if_neg h]
  | cons e rest ih =>
    obtain ⟨a, b⟩ := e
    by_cases hak : a = k
    · subst hak
      simp only [setKey, if_pos rfl]
      by_cases h : k' = a
      · subst h; simp [lookup_cons_self]
      · simp [lookup_cons_ne _ _ _ _ h, h]
    · simp only [setKey, if_neg hak]
      by_cases h : k' = a
      · subst h
        simp [lookup_cons_self, hak]
      · rw [lookup_cons_ne _ _ _ _ h, lookup_cons_ne _ _ _ _ h, ih]

theorem mem_keys_setKey (cat : Catalog) (k : Int) (v : Str) (k' : Int) :
    k' ∈ (setKey cat k v).map Prod.fst ↔ k' ∈ cat.map Prod.fst ∨ k' = k := by
  induction cat with
  | nil => simp [setKey]
  | cons e rest ih =>
    obtain ⟨a, b⟩ := e
    by_cases hak : a = k
    · subst hak; simp [setKey]; tauto
    · simp [setKey, hak, ih]; tauto

theorem nodup_keys_setKey (cat : Catalog) (k : Int) (v : Str)
    (h : (cat.map Prod.fst).Nodup) : ((setKey cat k v).map Prod.fst).Nodup := by
  induction cat with
  | nil => simp [setKey]
  | cons e rest ih =>
    obtain ⟨a, b⟩ := e
    simp only [List.map_cons, List.nodup_cons] at h
    by_cases hak : a = k
    · subst hak; simpa [setKey] using h
    · simp only [setKey, if_neg hak, List.map_cons, List.nodup_cons]
      exact ⟨fun hm => by
        rcases (mem_keys_setKey rest k v a).1 hm with h' | h'
        · exact h.1 h'
        · exact hak h', ih h.2⟩

theorem mem_setKey (cat : Catalog) (k : Int) (v : Str) (e : Int × Str) :
    e ∈ setKey cat k v → e ∈ cat ∨ e = (k, v) := by
  induction cat with
  | nil =>
    intro h
    rw [show setKey [] k v = [(k, v)] from rfl] at h
    exact Or.inr (List.mem_singleton.1 h)
  | cons a rest ih =>
    obtain ⟨a1, a2⟩ := a
    intro h
    by_cases hak : a1 = k
    · rw [show setKey ((a1, a2) :: rest) k v = (k, v) :: rest from by
        simp [setKey, hak]] at h
      rcases List.mem_cons.1 h with h1 | h1
      · exact Or.inr h1
      · exact Or.inl (List.mem_cons_of_mem _ h1)
    · rw [show setKey ((a1, a2) :: rest) k v = (a1, a2) :: setKey rest k v from by
        simp [setKey, hak]] at h
      rcases List.mem_cons.1 h with h1 | h1
      · exact Or.inl (List.mem_cons.2 (Or.inl h1))
      · rcases ih h1 with h2 | h2
        · exact Or.inl (List.mem_cons_of_mem _ h2)
        · exact Or.inr h2

/-- A tag rejected by the validity gate leaves the catalog untouched. -/
theorem processTag_invalid (cat : Catalog) (t : Str) (h : tagMajor t = none) :
    processTag cat t = cat := by
  simp [processTag, h]

/-- A tag whose major is below the floor leaves the catalog untouched. -/
theorem processTag_lowMajor (cat : Catalog) (t : Str) (m : Int)
    (h : tagMajor t = some m) (hlt : m < MIN_MAJOR_VERSION) :
    processTag cat t = cat := by
  simp [processTag, h, hlt]

theorem processTag_new (cat : Catalog) (t : Str) (m : Int)
    (h : tagMajor t = some m) (hge : ¬m < MIN_MAJOR_VERSION)
    (hl : List.lookup m cat = none) :
    processTag cat t = setKey cat m t := by
  simp [processTag, h, hge, hl]

theorem processTag_gt (cat : Catalog) (t cur : Str) (m : Int)
    (h : tagMajor t = some m) (hge : ¬m < MIN_MAJOR_VERSION)
    (hl : List.lookup m cat = some cur)
    (hgt : tupGT (versionTuple t) (versionTuple cur) = true) :
    processTag cat t = setKey cat m t := by
  simp [processTag, h, hge, hl, hgt]

theorem processTag_le (cat : Catalog) (t cur : Str) (m : Int)
    (h : tagMajor t = some m) (hge : ¬m < MIN_MAJOR_VERSION)
    (hl : List.lookup m cat = some cur)
    (hgt : tupGT (versionTuple t) (versionTuple cur) = false) :
    processTag cat t = cat := by
  simp [processTag, h, hge, hl, hgt]

/-- Exhaustive case split on what `processTag` does. -/
theorem processTag_cases (cat : Catalog) (t : Str) :
    processTag cat t = cat ∨
      ∃ m, tagMajor t = some m ∧ MIN_MAJOR_VERSION ≤ m ∧
        processTag cat t = setKey cat m t ∧
        (∀ cur, List.lookup m cat = some cur →
          tupGT (versionTuple t) (versionTuple cur) = true) := by
  rcases hm : tagMajor t with _ | m
  · exact Or.inl (processTag_invalid cat t hm)
  · by_cases hlt : m < MIN_MAJOR_VERSION
    · exact Or.inl (processTag_lowMajor cat t m hm hlt)
    · rcases hl : List.lookup m cat with _ | cur
      · refine Or.inr ⟨m, rfl, by omega, processTag_new cat t m hm hlt hl, ?_⟩
        intro cur hcur
        rw [hl] at hcur
        cases hcur
      · rcases hgt : tupGT (versionTuple t) (versionTuple cur) with _ | _
        · exact Or.inl (processTag_le cat t cur m hm hlt hl hgt)
        · refine Or.inr ⟨m, rfl, by omega, processTag_gt cat t cur m hm hlt hl hgt, ?_⟩
          intro cur' hcur'
          rw [hl] at hcur'
          cases hcur'
          exact hgt

theorem mem_processTag (cat : Catalog) (t : Str) (e : Int × Str)
    (h : e ∈ processTag cat t) :
    e ∈ cat ∨ (e.2 = t ∧ tagMajor t = some e.1 ∧ MIN_MAJOR_VERSION ≤ e.1) := by
  rcases processTag_cases cat t with hc | ⟨m, hm, hge, heq, _⟩
  · rw [hc] at h; exact Or.inl h
  · rw [heq] at h
    rcases mem_setKey cat m t e h with h2 | h2
    · exact Or.inl h2
    · right
      rw [h2]
      exact ⟨rfl, hm, hge⟩

/-- Catalog entries are tags from the input carrying their own parsed major,
which is at least the floor. -/
theorem mem_foldl_processTag (tags : List Str) (cat : Catalog) (k : Int) (v : Str)
    (h : (k, v) ∈ tags.foldl processTag cat) :
    (k, v) ∈ cat ∨ (v ∈ tags ∧ tagMajor v = some k ∧ MIN_MAJOR_VERSION ≤ k) := by
  induction tags generalizing cat with
  | nil => exact Or.inl h
  | cons t rest ih =>
    simp only [List.foldl_cons] at h
    rcases ih (processTag cat t) h with h' | h'
    · rcases mem_processTag cat t (k, v) h' with h2 | h2
      · exact Or.inl h2
      · right
        have hv : v = t := h2.1
        subst hv
        exact ⟨List.mem_cons_self _ _, h2.2.1, h2.2.2⟩
    · right; exact ⟨List.mem_cons_of_mem _ h'.1, h'.2⟩

/-! ## Order lemmas for Python tuple comparison -/

theorem tupGT_irrefl : ∀ a : List Nat, tupGT a a = false
  | [] => rfl
  | x :: xs => by
    simp only [tupGT, lt_irrefl, if_false]
    exact tupGT_irrefl xs

theorem tupGT_cons_iff (a b : Nat) (as bs : List Nat) :
    tupGT (a :: as) (b :: bs) = true ↔ b < a ∨ (a = b ∧ tupGT as bs = true) := by
  by_cases h1 : b < a
  · simp [tupGT, h1]
  · by_cases h2 : a < b
    · simp [tupGT, h1, h2]
      omega
    · have : a = b := by omega
      simp [tupGT, h1, h2, this]

theorem tupGT_trans : ∀ a b c : List Nat,
    tupGT a b = true → tupGT b c = true → tupGT a c = true
  | [], _, _, hab, _ => by cases hab
  | _ :: _, [], _, _, hbc => by cases hbc
  | _ :: _, _ :: _, [], _, _ => rfl
  | a :: as, b :: bs, c :: cs, hab, hbc => by
    rcases (tupGT_cons_iff a b as bs).1 hab with h1 | ⟨h1, hr1⟩ <;>
      rcases (tupGT_cons_iff b c bs cs).1 hbc with h2 | ⟨h2, hr2⟩ <;>
      apply (tupGT_cons_iff a c as cs).2
    · left; omega
    · left; omega
    · left; omega
    · exact Or.inr ⟨by omega, tupGT_trans as bs cs hr1 hr2⟩

theorem lookup_mem (cat : Catalog) (m : Int) (v : Str)
    (h : List.lookup m cat = some v) : (m, v) ∈ cat := by
  induction cat with
  | nil => cases h
  | cons e rest ih =>
    obtain ⟨a, b⟩ := e
    by_cases hma : m = a
    · subst hma
      rw [lookup_cons_self] at h
      cases h
      exact List.mem_cons_self _ _
    · rw [lookup_cons_ne _ _ _ _ hma] at h
      exact List.mem_cons_of_mem _ (ih h)

/-! ## The catalog invariant (nodup keys, per-major maximality, completeness) -/

/-- Invariant carried along the fetch loop: keys are unique and at least the
floor, every entry dominates all same-major tags seen so far, and every
admissible tag seen so far has an entry for its major. -/
def FetchInv (tags : List Str) (cat : Catalog) : Prop :=
  ((cat.map Prod.fst).Nodup) ∧
  (∀ m v, List.lookup m cat = some v → MIN_MAJOR_VERSION ≤ m) ∧
  (∀ m v, List.lookup m cat = some v →
    ∀ t ∈ tags, tagMajor t = some m → tupGT (versionTuple t) (versionTuple v) = false) ∧
  (∀ t m, t ∈ tags → tagMajor t = some m → MIN_MAJOR_VERSION ≤ m →
    ∃ v, List.lookup m cat = some v)

theorem fetchInv_step (tags : List Str) (cat : Catalog) (t : Str)
    (h : FetchInv tags cat) : FetchInv (tags ++ [t]) (processTag cat t) := by
  obtain ⟨hnd, hflo, hmax, hcomp⟩ := h
  have hsingle : ∀ t' : Str, t' ∈ [t] → t' = t := fun t' h' => List.mem_singleton.1 h'
  rcases hm : tagMajor t with _ | mt
  · rw [processTag_invalid cat t hm]
    refine ⟨hnd, hflo, ?_, ?_⟩
    · intro m v hl t' ht' hmt'
      rcases List.mem_append.1 ht' with h' | h'
      · exact hmax m v hl t' h' hmt'
      · rw [hsingle t' h', hm] at hmt'; cases hmt'
    · intro t' m ht' hmt' hge
      rcases List.mem_append.1 ht' with h' | h'
      · exact hcomp t' m h' hmt' hge
      · rw [hsingle t' h', hm] at hmt'; cases hmt'
  · by_cases hlt : mt < MIN_MAJOR_VERSION
    · rw [processTag_lowMajor cat t mt hm hlt]
      refine ⟨hnd, hflo, ?_, ?_⟩
      · intro m v hl t' ht' hmt'
        rcases List.mem_append.1 ht' with h' | h'
        · exact hmax m v hl t' h' hmt'
        · rw [hsingle t' h', hm] at hmt'
          cases hmt'
          have := hflo _ v hl
          omega
      · intro t' m ht' hmt' hge
        rcases List.mem_append.1 ht' with h' | h'
        · exact hcomp t' m h' hmt' hge
        · rw [hsingle t' h', hm] at hmt'
          cases hmt'
          omega
    · have hfloSet : ∀ m v, List.lookup m (setKey cat mt t) = some v →
          MIN_MAJOR_VERSION ≤ m := by
        intro m v hlv
        rw [lookup_setKey] at hlv
        by_cases hmm : m = mt
        · omega
        · rw [if_neg hmm] at hlv; exact hflo m v hlv
      have hcompSet : ∀ t' m, t' ∈ tags ++ [t] → tagMajor t' = some m →
          MIN_MAJOR_VERSION ≤ m → ∃ v, List.lookup m (setKey cat mt t) = some v := by
        intro t' m ht' hmt' hge
        rw [lookup_setKey]
        by_cases hmm : m = mt
        · rw [if_pos hmm]; exact ⟨t, rfl⟩
        · rw [if_neg hmm]
          rcases List.mem_append.1 ht' with h' | h'
          · exact hcomp t' m h' hmt' hge
          · rw [hsingle t' h', hm] at hmt'
            cases hmt'
            exact absurd rfl hmm
      rcases hl : List.lookup mt cat with _ | cur
      · rw [processTag_new cat t mt hm hlt hl]
        refine ⟨nodup_keys_setKey cat mt t hnd, hfloSet, ?_, hcompSet⟩
        intro m v hlv t' ht' hmt'
        rw [lookup_setKey] at hlv
        by_cases hmm : m = mt
        · rw [if_pos hmm] at hlv
          cases hlv
          subst hmm
          rcases List.mem_append.1 ht' with h' | h'
          · exfalso
            rcases hcomp t' _ h' hmt' (by omega) with ⟨w, hw⟩
            rw [hl] at hw
            cases hw
          · rw [hsingle t' h'] at hmt' ⊢
            rw [hm] at hmt'
            cases hmt'
            exact tupGT_irrefl _
        · rw [if_neg hmm] at hlv
          rcases List.mem_append.1 ht' with h' | h'
          · exact hmax m v hlv t' h' hmt'
          · rw [hsingle t' h', hm] at hmt'
            cases hmt'
            exact absurd rfl hmm
      · rcases hgt : tupGT (versionTuple t) (versionTuple cur) with _ | _
        · rw [processTag_le cat t cur mt hm hlt hl hgt]
          refine ⟨hnd, hflo, ?_, ?_⟩
          · intro m v hlv t' ht' hmt'
            rcases List.mem_append.1 ht' with h' | h'
            · exact hmax m v hlv t' h' hmt'
            · rw [hsingle t' h'] at hmt' ⊢
              rw [hm] at hmt'
              cases hmt'
              rw [hl] at hlv
              cases hlv
              exact hgt
          · intro t' m ht' hmt' hge
            rcases List.mem_append.1 ht' with h' | h'
            · exact hcomp t' m h' hmt' hge
            · rw [hsingle t' h', hm] at hmt'
              cases hmt'
              exact ⟨cur, hl⟩
        · rw [processTag_gt cat t cur mt hm hlt hl hgt]
          refine ⟨nodup_keys_setKey cat mt t hnd, hfloSet, ?_, hcompSet⟩
          intro m v hlv t' ht' hmt'
          rw [lookup_setKey] at hlv
          by_cases hmm : m = mt
          · rw [if_pos hmm] at hlv
            cases hlv
            subst hmm
            rcases List.mem_append.1 ht' with h' | h'
            · have hd := hmax _ cur hl t' h' hmt'
              rcases hq : tupGT (versionTuple t') (versionTuple t) with _ | _
              · rfl
              · rw [tupGT_trans _ _ _ hq hgt] at hd
                cases hd
            · rw [hsingle t' h'] at hmt' ⊢
              rw [hm] at hmt'
              cases hmt'
              exact tupGT_irrefl _
          · rw [if_neg hmm] at hlv
            rcases List.mem_append.1 ht' with h' | h'
            · exact hmax m v hlv t' h' hmt'
            · rw [hsingle t' h', hm] at hmt'
              cases hmt'
              exact absurd rfl hmm

theorem fetchInv_foldl (rest : List Str) :
    ∀ (tags : List Str) (cat : Catalog), FetchInv tags cat →
      FetchInv (tags ++ rest) (rest.foldl processTag cat) := by
  induction rest with
  | nil => intro tags cat h; simpa using h
  | cons t ts ih =>
    intro tags cat h
    have h2 := ih (tags ++ [t]) (processTag cat t) (fetchInv_step tags cat t h)
    simpa [List.append_assoc] using h2

theorem fetchCatalog_inv (tags : List Str) : FetchInv tags (fetchCatalog tags) := by
  have h0 : FetchInv [] [] := by
    refine ⟨List.nodup_nil, ?_, ?_, ?_⟩
    · intro m v hl; cases hl
    · intro m v hl; cases hl
    · intro t m ht; cases ht
  simpa using fetchInv_foldl tags [] [] h0

/-! ## C4 -/

/-- C4: for every list of release tags, the catalog has exactly one entry per
major (its key list has no duplicates), and the entry for a major `m` is a tag
of the input with parsed major `m` whose numeric tuple no same-major tag of
the input strictly exceeds (component-wise left-to-right comparison; the first
of several tags with equal tuples is kept). -/
theorem c4_latest_patch_per_major (tags : List Str) (m : Int) (v : Str)
    (h : List.lookup m (fetchCatalog tags) = some v) :
    ((fetchCatalog tags).map Prod.fst).Nodup ∧
      v ∈ tags ∧ tagMajor v = some m ∧
      ∀ t ∈ tags, tagMajor t = some m →
        tupGT (versionTuple t) (versionTuple v) = false := by
  obtain ⟨hnd, _, hmax, _⟩ := fetchCatalog_inv tags
  have hmem := lookup_mem _ _ _ h
  rcases mem_foldl_processTag tags [] m v hmem with h' | h'
  · cases h'
  · exact ⟨hnd, h'.1, h'.2.1, hmax m v h⟩

/-- Witness for C4, including the spec's concrete scenario: among `13.1`,
`13.9`, `13.2` the catalog's entry for major 13 is `13.9`. -/
theorem c4_latest_patch_per_major_witness :
    List.lookup 13 (fetchCatalog ["13.1".toList, "13.9".toList, "13.2".toList]) =
        some "13.9".toList ∧
      (((fetchCatalog ["13.1".toList, "13.9".toList, "13.2".toList]).map Prod.fst).Nodup ∧
        "13.9".toList ∈ ["13.1".toList, "13.9".toList, "13.2".toList] ∧
        tagMajor "13.9".toList = some 13 ∧
        ∀ t ∈ ["13.1".toList, "13.9".toList, "13.2".toList], tagMajor t = some 13 →
          tupGT (versionTuple t) (versionTuple "13.9".toList) = false) :=
  ⟨by decide,
   c4_latest_patch_per_major ["13.1".toList, "13.9".toList, "13.2".toList] 13
     "13.9".toList (by decide)⟩

/-! ## C5 -/

/-- C5: for every list of release tags, every catalog entry's key is its value's
own parsed major, and no entry with parsed major below the floor 13 ever
appears, regardless of its minor or patch components. -/
theorem c5_floor_filtering (tags : List Str) (k : Int) (v : Str)
    (h : (k, v) ∈ fetchCatalog tags) :
    tagMajor v = some k ∧ MIN_MAJOR_VERSION ≤ k := by
  rcases mem_foldl_processTag tags [] k v h with h' | h'
  · simp at h'
  · exact ⟨h'.2.1, h'.2.2⟩

theorem c5_floor_filtering_witness :
    (18, "18.2.0".toList) ∈ fetchCatalog ["18.2.0".toList, "12.9.9".toList] ∧
      tagMajor "18.2.0".toList = some 18 ∧ MIN_MAJOR_VERSION ≤ 18 :=
  ⟨by decide,
   c5_floor_filtering ["18.2.0".toList, "12.9.9".toList] 18 "18.2.0".toList (by decide)⟩

/-! ## C6 -/

/-- C6 counterexample: the tag `13.abc`, whose component after the first dot is
not numeric, is NOT discarded: it becomes the catalog entry for major 13
(only the leading component is validated by the code). -/
theorem c6_counterexample :
    List.lookup 13 (fetchCatalog ["13.abc".toList]) = some "13.abc".toList ∧
      pyIsDigit "abc".toList = false := by
  decide

/-- C6 (amended): only tags that are nonempty, contain at least one dot, and
whose leading dot-component parses as an integer are considered for the
catalog; a tag failing these checks is discarded without error and without
affecting other entries.  (Components after the first dot are not validated:
the matching counterexample shows `13.abc` is retained.) -/
theorem c6_amended_malformed_discarded (pre post : List Str) (t : Str)
    (h : tagMajor t = none) :
    fetchCatalog (pre ++ t :: post) = fetchCatalog (pre ++ post) := by
  unfold fetchCatalog
  rw [List.foldl_append, List.foldl_append, List.foldl_cons, processTag_invalid _ t h]

theorem c6_amended_malformed_discarded_witness :
    tagMajor "13".toList = none ∧
      fetchCatalog ["14.1".toList, "13".toList, "15.2".toList] =
        fetchCatalog ["14.1".toList, "15.2".toList] := by
  refine ⟨by decide, c6_amended_malformed_discarded ["14.1".toList] ["15.2".toList] _ (by decide)⟩

/-! ## Sortedness of the supported window -/

instance : IsTotal Int (fun a b => b ≤ a) := ⟨fun a b => le_total b a⟩

instance : IsTrans Int (fun a b => b ≤ a) := ⟨fun _ _ _ hab hbc => le_trans hbc hab⟩

theorem sortMajorsDesc_sorted (ks : List Int) :
    (sortMajorsDesc ks).Pairwise (fun a b => b ≤ a) :=
  List.sorted_insertionSort (fun a b => b ≤ a) ks

theorem sortMajorsDesc_perm (ks : List Int) : (sortMajorsDesc ks).Perm ks :=
  List.perm_insertionSort (fun a b => b ≤ a) ks

theorem sorted_desc_le_head (l : List Int) (h : l.Pairwise (fun a b => b ≤ a))
    (y : Int) (hy : l.head? = some y) : ∀ x ∈ l, x ≤ y := by
  cases l with
  | nil => cases hy
  | cons a as =>
    cases hy
    intro x hx
    rcases List.mem_cons.1 hx with h' | h'
    · exact le_of_eq h'
    · exact (List.pairwise_cons.1 h).1 x h'

theorem sorted_desc_getLast_le (l : List Int) (h : l.Pairwise (fun a b => b ≤ a))
    (y : Int) (hy : l.getLast? = some y) : ∀ x ∈ l, y ≤ x := by
  induction l with
  | nil => cases hy
  | cons a as ih =>
    cases as with
    | nil =>
      cases hy
      intro x hx
      rcases List.mem_singleton.1 hx with h'
      exact le_of_eq h'.symm
    | cons b bs =>
      rw [List.getLast?_cons_cons] at hy
      have hrest := ih (List.pairwise_cons.1 h).2 hy
      intro x hx
      rcases List.mem_cons.1 hx with h' | h'
      · subst h'
        exact le_trans (hrest b (List.mem_cons_self _ _))
          ((List.pairwise_cons.1 h).1 b (List.mem_cons_self _ _))
      · exact hrest x h'

/-! ## C3 -/

/-- C3: the selector sorts the majors descending and keeps the first 5 as the
supported window.  If the window is nonempty, `newest` is the full version
recorded for the window's maximal major (its head) and `oldest` the full
version of the window's minimal major (its last element); with exactly one
entry, head and last coincide, so both fields equal that entry's version; if
the window is empty, both fields are the empty version.  Hypotheses: the
catalog is a dict (no duplicate majors) whose majors respect the floor — the
invariant every fetched catalog satisfies. -/
theorem c3_selector (available : Catalog)
    (hflo : ∀ k ∈ available.map Prod.fst, MIN_MAJOR_VERSION ≤ k) :
    ((sortMajorsDesc (available.map Prod.fst)).take NUM_SUPPORTED_VERSIONS = [] →
      dget (get_recommended_versions available) "newest" = [] ∧
      dget (get_recommended_versions available) "oldest" = []) ∧
    (∀ M, ((sortMajorsDesc (available.map Prod.fst)).take NUM_SUPPORTED_VERSIONS).head? =
        some M →
      dget (get_recommended_versions available) "newest" = dictGet available M ∧
      M ∈ available.map Prod.fst ∧
      ∀ x ∈ (sortMajorsDesc (available.map Prod.fst)).take NUM_SUPPORTED_VERSIONS,
        x ≤ M) ∧
    (∀ m, ((sortMajorsDesc (available.map Prod.fst)).take NUM_SUPPORTED_VERSIONS).getLast? =
        some m →
      dget (get_recommended_versions available) "oldest" = dictGet available m ∧
      m ∈ available.map Prod.fst ∧
      ∀ x ∈ (sortMajorsDesc (available.map Prod.fst)).take NUM_SUPPORTED_VERSIONS,
        m ≤ x) := by
  have hw : get_recommended_versions available =
      [("newest",
          pyTruthyGet available
            (((sortMajorsDesc (available.map Prod.fst)).take
              NUM_SUPPORTED_VERSIONS).head?)),
        ("oldest",
          pyTruthyGet available
            (((sortMajorsDesc (available.map Prod.fst)).take
              NUM_SUPPORTED_VERSIONS).getLast?))] := by
    simp only [get_recommended_versions, ite_self]
  have hnewest : dget (get_recommended_versions available) "newest" =
      pyTruthyGet available
        (((sortMajorsDesc (available.map Prod.fst)).take NUM_SUPPORTED_VERSIONS).head?) := by
    rw [hw]; rfl
  have holdest : dget (get_recommended_versions available) "oldest" =
      pyTruthyGet available
        (((sortMajorsDesc (available.map Prod.fst)).take
          NUM_SUPPORTED_VERSIONS).getLast?) := by
    rw [hw]; rfl
  have hsorted : ((sortMajorsDesc (available.map Prod.fst)).take
      NUM_SUPPORTED_VERSIONS).Pairwise (fun a b => b ≤ a) :=
    (sortMajorsDesc_sorted _).take
  have hsub : ∀ x ∈ (sortMajorsDesc (available.map Prod.fst)).take NUM_SUPPORTED_VERSIONS,
      x ∈ available.map Prod.fst := fun x hx =>
    (sortMajorsDesc_perm _).mem_iff.1 ((List.take_sublist _ _).mem hx)
  refine ⟨?_, ?_, ?_⟩
  · intro hnil
    rw [hnewest, holdest, hnil]
    exact ⟨rfl, rfl⟩
  · intro M hM
    have hMmem : M ∈ available.map Prod.fst := hsub M (List.mem_of_mem_head? hM)
    have hM13 := hflo M hMmem
    refine ⟨?_, hMmem, sorted_desc_le_head _ hsorted M hM⟩
    rw [hnewest, hM]
    have : M ≠ 0 := by
      simp only [MIN_MAJOR_VERSION] at hM13
      omega
    simp [pyTruthyGet, this]
  · intro m hm
    have hmmem : m ∈ available.map Prod.fst :=
      hsub m (List.mem_of_mem_getLast? hm)
    have hm13 := hflo m hmmem
    refine ⟨?_, hmmem, sorted_desc_getLast_le _ hsorted m hm⟩
    rw [holdest, hm]
    have : m ≠ 0 := by
      simp only [MIN_MAJOR_VERSION] at hm13
      omega
    simp [pyTruthyGet, this]

theorem c3_selector_witness :
    (∀ k ∈ ([(18, "18.2.0".toList), (14, "14.19.0".toList)] : Catalog).map Prod.fst,
        MIN_MAJOR_VERSION ≤ k) ∧
      (∀ M, ((sortMajorsDesc
            (([(18, "18.2.0".toList), (14, "14.19.0".toList)] : Catalog).map
              Prod.fst)).take NUM_SUPPORTED_VERSIONS).head? = some M →
        dget (get_recommended_versions
            [(18, "18.2.0".toList), (14, "14.19.0".toList)]) "newest" =
          dictGet [(18, "18.2.0".toList), (14, "14.19.0".toList)] M ∧
        M ∈ ([(18, "18.2.0".toList), (14, "14.19.0".toList)] : Catalog).map Prod.fst ∧
        ∀ x ∈ (sortMajorsDesc
            (([(18, "18.2.0".toList), (14, "14.19.0".toList)] : Catalog).map
              Prod.fst)).take NUM_SUPPORTED_VERSIONS, x ≤ M) :=
  ⟨by decide,
   (c3_selector [(18, "18.2.0".toList), (14, "14.19.0".toList)] (by decide)).2.1⟩

/-! ## C2 -/

/-- C2 counterexample: a recorded state whose newest/oldest values are the
recommendation's values swapped.  The two version sets are equal as sets
(the value lists are permutations of each other), yet the driver does not
reach `UP_TO_DATE`: the code compares the dicts field-wise, so it reports an
update, emits `updated=true`, and (under `--apply`) writes files. -/
theorem c2_counterexample :
    ((read_versions_file
          ⟨some [("newest", "14.19.0".toList), ("oldest", "18.2.0".toList)],
            [], [], [], []⟩).map Prod.snd).Perm
        ((get_recommended_versions
            [(18, "18.2.0".toList), (14, "14.19.0".toList)]).map Prod.snd) ∧
      (mainModel false true [(18, "18.2.0".toList), (14, "14.19.0".toList)]
          ⟨some [("newest", "14.19.0".toList), ("oldest", "18.2.0".toList)],
            [], [], [], []⟩).writes ≠ [] ∧
      (mainModel false true [(18, "18.2.0".toList), (14, "14.19.0".toList)]
          ⟨some [("newest", "14.19.0".toList), ("oldest", "18.2.0".toList)],
            [], [], [], []⟩).outputs.lookup "updated" = some "true".toList := by
  decide

/-- C2 (amended): if the recorded mapping equals the recommendation as a
dict — the same value at `"newest"`, the same value at `"oldest"`, and no
other keys (Python `==` on dicts, order-independent in the keys but
field-wise in the values) — then for a non-empty catalog the driver reaches
`UP_TO_DATE`: it emits only the `updated=false` signal, returns success, and
opens no file for writing. -/
theorem c2_amended_up_to_date (check apply : Bool) (available : Catalog)
    (st : RepoState) (hne : available ≠ [])
    (heq : dictBEq (get_recommended_versions available) (read_versions_file st) = true) :
    mainModel check apply available st = ⟨0, st, [("updated", "false".toList)], []⟩ := by
  simp only [mainModel, if_neg hne, heq, if_true]

theorem c2_amended_up_to_date_witness :
    (([(18, "18.2.0".toList), (14, "14.19.0".toList)] : Catalog) ≠ [] ∧
      dictBEq
        (get_recommended_versions [(18, "18.2.0".toList), (14, "14.19.0".toList)])
        (read_versions_file
          ⟨some [("newest", "18.2.0".toList), ("oldest", "14.19.0".toList)],
            [], [], [], []⟩) = true) ∧
      mainModel true false [(18, "18.2.0".toList), (14, "14.19.0".toList)]
          ⟨some [("newest", "18.2.0".toList), ("oldest", "14.19.0".toList)],
            [], [], [], []⟩ =
        ⟨0,
          ⟨some [("newest", "18.2.0".toList), ("oldest", "14.19.0".toList)],
            [], [], [], []⟩,
          [("updated", "false".toList)], []⟩ :=
  ⟨⟨by decide, by decide⟩,
   c2_amended_up_to_date true false _ _ (by decide) (by decide)⟩

/-! ## C8 -/

/-- C8: in check mode (`--check`), for a non-empty catalog — in particular
even when an update is available — the driver exits successfully, every
target file (state record, CI matrix, build-matrix descriptor,
version-manager config, and all per-major descriptors) keeps its exact
content, and nothing is written. -/
theorem c8_check_mode_never_mutates (apply : Bool) (available : Catalog)
    (st : RepoState) (hne : available ≠ []) :
    (mainModel true apply available st).state = st ∧
      (mainModel true apply available st).writes = [] ∧
      (mainModel true apply available st).exitCode = 0 := by
  simp only [mainModel, if_neg hne]
  rcases hb : dictBEq (get_recommended_versions available) (read_versions_file st)
    with _ | _ <;> simp [hb]

theorem c8_check_mode_never_mutates_witness :
    (([(18, "18.2.0".toList), (14, "14.19.0".toList)] : Catalog) ≠ []) ∧
      ((mainModel true false [(18, "18.2.0".toList), (14, "14.19.0".toList)]
          ⟨none, "pg_version: [\"1.0.0\"]".toList, [], [], []⟩).state =
        ⟨none, "pg_version: [\"1.0.0\"]".toList, [], [], []⟩ ∧
      (mainModel true false [(18, "18.2.0".toList), (14, "14.19.0".toList)]
          ⟨none, "pg_version: [\"1.0.0\"]".toList, [], [], []⟩).writes = [] ∧
      (mainModel true false [(18, "18.2.0".toList), (14, "14.19.0".toList)]
          ⟨none, "pg_version: [\"1.0.0\"]".toList, [], [], []⟩).exitCode = 0) :=
  ⟨by decide, c8_check_mode_never_mutates false _ _ (by decide)⟩

/-! ## C7 -/

/-- C7: the end-to-end scenario.  From the seven upstream releases the floor
excludes major 12, the supported window is `[18, 17, 16, 15, 14]`, the
two-element recommendation is newest `18.2.0` / oldest `14.19.0`, and the CI
matrix rewrite turns `pg_version: ["17.6.1", "13.22.0"]` into
`pg_version: ["18.2.0", "14.19.0"]` reporting changed = true. -/
theorem c7_end_to_end :
    List.lookup 12
        (fetchCatalog (["18.2.0", "17.6.1", "16.10.0", "15.14.0", "14.19.0",
          "13.22.0", "12.5.0"].map String.toList)) = none ∧
      (sortMajorsDesc
          ((fetchCatalog (["18.2.0", "17.6.1", "16.10.0", "15.14.0", "14.19.0",
            "13.22.0", "12.5.0"].map String.toList)).map Prod.fst)).take
          NUM_SUPPORTED_VERSIONS = [18, 17, 16, 15, 14] ∧
      get_recommended_versions
          (fetchCatalog (["18.2.0", "17.6.1", "16.10.0", "15.14.0", "14.19.0",
            "13.22.0", "12.5.0"].map String.toList)) =
        [("newest", "18.2.0".toList), ("oldest", "14.19.0".toList)] ∧
      update_ci_workflow
          (get_recommended_versions
            (fetchCatalog (["18.2.0", "17.6.1", "16.10.0", "15.14.0", "14.19.0",
              "13.22.0", "12.5.0"].map String.toList)))
          "      pg_version: [\"17.6.1\", \"13.22.0\"]\n".toList =
        (true, "      pg_version: [\"18.2.0\", \"14.19.0\"]\n".toList) := by
  decide

/-! ## C9 -/

/-- C9: when the fetch yields an empty catalog, the driver fails with exit
code 1, writes no file, leaves the repository untouched, and emits no CI
output signal at all (in particular none declaring an update). -/
theorem c9_empty_catalog_fatal (check apply : Bool) (st : RepoState) :
    mainModel check apply [] st = ⟨1, st, [], []⟩ := by
  rfl

/-! ## Initial-segment toolbox -/

theorem IsPre_nil (s : Str) : IsPre [] s := ⟨s, rfl⟩

theorem IsPre_self_append (p t : Str) : IsPre p (p ++ t) := ⟨t, rfl⟩

theorem IsPre_refl (p : Str) : IsPre p p := ⟨[], by simp⟩

theorem length_le_of_IsPre {p s : Str} (h : IsPre p s) : p.length ≤ s.length := by
  obtain ⟨t, ht⟩ := h
  rw [← ht, List.length_append]
  omega

theorem mem_of_IsPre {p s : Str} (h : IsPre p s) {x : Char} (hx : x ∈ p) : x ∈ s := by
  obtain ⟨t, ht⟩ := h
  rw [← ht]
  exact List.mem_append_left _ hx

theorem IsPre_cons {p : Str} {c : Char} {s : Str} (h : IsPre p (c :: s)) :
    p = [] ∨ ∃ p', p = c :: p' ∧ IsPre p' s := by
  obtain ⟨t, ht⟩ := h
  cases p with
  | nil => exact Or.inl rfl
  | cons a as =>
    rw [List.cons_append] at ht
    injection ht with h1 h2
    exact Or.inr ⟨as, by rw [h1], ⟨t, h2⟩⟩

theorem IsPre_cons_of {p s : Str} (c : Char) (h : IsPre p s) : IsPre (c :: p) (c :: s) := by
  obtain ⟨t, ht⟩ := h
  exact ⟨t, by rw [List.cons_append, ht]⟩

/-- Two initial segments of the same string are nested. -/
theorem IsPre_nested {p q s : Str} (hp : IsPre p s) (hq : IsPre q s)
    (hl : p.length ≤ q.length) : IsPre p q := by
  obtain ⟨t, ht⟩ := hp
  obtain ⟨w, hw⟩ := hq
  induction p generalizing q s with
  | nil => exact IsPre_nil q
  | cons a as ih =>
    cases q with
    | nil => simp at hl
    | cons b bs =>
      cases s with
      | nil => cases ht
      | cons c cs =>
        rw [List.cons_append] at ht hw
        injection ht with ht1 ht2
        injection hw with hw1 hw2
        subst ht1
        subst hw1
        have := ih (by simpa using hl) (q := bs) (s := cs) ht2 hw2
        exact IsPre_cons_of _ this

theorem IsPre_of_append_le {p q t : Str} (h : IsPre p (q ++ t))
    (hl : p.length ≤ q.length) : IsPre p q :=
  IsPre_nested h (IsPre_self_append q t) hl

theorem IsPre_trans {p q s : Str} (h1 : IsPre p q) (h2 : IsPre q s) : IsPre p s := by
  obtain ⟨a, ha⟩ := h1
  obtain ⟨b, hb⟩ := h2
  exact ⟨a ++ b, by rw [← List.append_assoc, ha, hb]⟩

theorem isPreB_iff : ∀ p s : Str, isPreB p s = true ↔ IsPre p s := by
  intro p
  induction p with
  | nil => intro s; simp [isPreB, IsPre_nil]
  | cons a as ih =>
    intro s
    cases s with
    | nil =>
      simp only [isPreB, Bool.false_eq_true, false_iff]
      rintro ⟨t, ht⟩
      cases ht
    | cons b bs =>
      simp only [isPreB, Bool.and_eq_true, decide_eq_true_eq, ih bs]
      constructor
      · rintro ⟨rfl, h⟩
        exact IsPre_cons_of _ h
      · intro h
        rcases IsPre_cons h with h' | ⟨p', hp', h''⟩
        · cases h'
        · injection hp' with h1 h2
          subst h1
          subst h2
          exact ⟨rfl, h''⟩

theorem heads_eq_of_append_eq {a b c d : Str} (h : a ++ b = c ++ d)
    (ha : a ≠ []) (hc : c ≠ []) : a.head? = c.head? := by
  cases a with
  | nil => exact absurd rfl ha
  | cons x xs =>
    cases c with
    | nil => exact absurd rfl hc
    | cons y ys =>
      rw [List.cons_append, List.cons_append] at h
      injection h with h1 _
      simp [h1]

/-! ## Generic scan lemmas -/

theorem length_rest_le {M : Str → Option (Str × Str × Str)} (hwf : WF M)
    {c : Char} {cs m r t : Str} (h : M (c :: cs) = some (m, r, t)) :
    t.length ≤ cs.length := by
  obtain ⟨he, hne⟩ := hwf _ _ _ _ h
  cases m with
  | nil => exact absurd rfl hne
  | cons d ds =>
    rw [List.cons_append] at he
    injection he with _ h2
    rw [h2, List.length_append]
    omega

theorem scanF_fuel {M : Str → Option (Str × Str × Str)} (hwf : WF M) :
    ∀ n m (s : Str), s.length ≤ n → s.length ≤ m → scanF M n s = scanF M m s := by
  intro n
  induction n with
  | zero =>
    intro m s h1 _
    have : s = [] := List.length_eq_zero.1 (by omega)
    subst this
    cases m <;> rfl
  | succ n ih =>
    intro m s h1 h2
    cases s with
    | nil => cases m <;> rfl
    | cons c cs =>
      cases m with
      | zero => simp at h2
      | succ m' =>
        simp only [scanF]
        have hcs1 : cs.length ≤ n := by
          simp only [List.length_cons] at h1
          omega
        have hcs2 : cs.length ≤ m' := by
          simp only [List.length_cons] at h2
          omega
        cases hM : M (c :: cs) with
        | none =>
          show c :: scanF M n cs = c :: scanF M m' cs
          rw [ih m' cs hcs1 hcs2]
        | some v =>
          obtain ⟨m0, r, t⟩ := v
          have hlen : t.length ≤ cs.length := length_rest_le hwf hM
          show r ++ scanF M n t = r ++ scanF M m' t
          rw [ih m' t (by omega) (by omega)]

theorem scan_nil (M : Str → Option (Str × Str × Str)) : scanSub M [] = [] := rfl

theorem scan_cons_none {M : Str → Option (Str × Str × Str)} {c : Char} {cs : Str}
    (h : M (c :: cs) = none) : scanSub M (c :: cs) = c :: scanSub M cs := by
  unfold scanSub
  simp only [List.length_cons, scanF, h]

theorem scan_cons_some {M : Str → Option (Str × Str × Str)} (hwf : WF M)
    {c : Char} {cs m r t : Str} (h : M (c :: cs) = some (m, r, t)) :
    scanSub M (c :: cs) = r ++ scanSub M t := by
  unfold scanSub
  simp only [List.length_cons, scanF, h]
  rw [scanF_fuel hwf cs.length t.length t (length_rest_le hwf h) (le_refl _)]

/-- If the matcher fails at every suffix position, a scan is the identity. -/
theorem scan_eq_self_of_no_fire {M : Str → Option (Str × Str × Str)} :
    ∀ u : Str, (∀ a b, u = a ++ b → b ≠ [] → M b = none) → scanSub M u = u := by
  intro u
  induction u with
  | nil => intro _; rfl
  | cons c cs ih =>
    intro h
    rw [scan_cons_none (h [] (c :: cs) rfl (by simp))]
    rw [ih fun a b hab hb => h (c :: a) b (by rw [hab, List.cons_append]) hb]

/-- A scan skips over a span at whose positions the matcher fails. -/
theorem scan_append_skip {M : Str → Option (Str × Str × Str)} :
    ∀ a b : Str, (∀ a1 c a2, a = a1 ++ c :: a2 → M (c :: (a2 ++ b)) = none) →
      scanSub M (a ++ b) = a ++ scanSub M b := by
  intro a
  induction a with
  | nil => intro b _; rfl
  | cons c a' ih =>
    intro b h
    rw [List.cons_append, scan_cons_none (by simpa using h [] c a' rfl)]
    rw [ih b fun a1 c' a2 hs => h (c :: a1) c' a2 (by rw [hs, List.cons_append])]
    rw [List.cons_append]

theorem stableT_scan_eq {M : Str → Option (Str × Str × Str)} (hwf : WF M)
    {x : Str} (h : StableT M x) : scanSub M x = x := by
  induction h with
  | nil => rfl
  | skip c ds hM _ ih => rw [scan_cons_none hM, ih]
  | hit r ds hM hne _ ih =>
    cases r with
    | nil => exact absurd rfl hne
    | cons c r' =>
      rw [List.cons_append] at hM ⊢
      rw [scan_cons_some hwf hM, ih, List.cons_append]

theorem stableT_append_skips {M : Str → Option (Str × Str × Str)} :
    ∀ a b : Str, (∀ a1 c a2, a = a1 ++ c :: a2 → M (c :: (a2 ++ b)) = none) →
      StableT M b → StableT M (a ++ b) := by
  intro a
  induction a with
  | nil => intro b _ hb; exact hb
  | cons c a' ih =>
    intro b h hb
    rw [List.cons_append]
    refine StableT.skip c (a' ++ b) (by simpa using h [] c a' rfl) ?_
    exact ih b (fun a1 c' a2 hs => h (c :: a1) c' a2 (by rw [hs, List.cons_append])) hb

/-- Case inversion for `StableT` (avoiding dependent elimination on the index). -/
theorem stableT_inv {M : Str → Option (Str × Str × Str)} {x : Str} (h : StableT M x) :
    x = [] ∨
      (∃ c cs, x = c :: cs ∧ M x = none ∧ StableT M cs) ∨
      (∃ r ds, x = r ++ ds ∧ M x = some (r, r, ds) ∧ r ≠ [] ∧ StableT M ds) := by
  cases h with
  | nil => exact Or.inl rfl
  | skip c ds hM hs => exact Or.inr (Or.inl ⟨c, ds, rfl, hM, hs⟩)
  | hit r ds hM hne hs => exact Or.inr (Or.inr ⟨r, ds, rfl, hM, hne, hs⟩)

theorem stableT_append_elim {M : Str → Option (Str × Str × Str)} :
    ∀ a b : Str, StableT M (a ++ b) →
      (∀ a1 c a2, a = a1 ++ c :: a2 → M (c :: (a2 ++ b)) = none) → StableT M b := by
  intro a
  induction a with
  | nil => intro b h _; exact h
  | cons c a' ih =>
    intro b h hno
    rw [List.cons_append] at h
    have hfail : M (c :: (a' ++ b)) = none := by simpa using hno [] c a' rfl
    rcases stableT_inv h with h0 | ⟨c', cs', he, _, hs⟩ | ⟨r, ds, _, hM, _, _⟩
    · cases h0
    · injection he with _ h2
      rw [← h2] at hs
      exact ih b hs fun a1 c' a2 hs' => hno (c :: a1) c' a2 (by rw [hs', List.cons_append])
    · rw [hfail] at hM
      cases hM

/-- First-fire decomposition of a scan: either the matcher never fires and the
scan is the identity, or the input splits as a fire-free span, a first match,
and a tail, and the scan rewrites accordingly. -/
theorem scan_decomp {M : Str → Option (Str × Str × Str)} (hwf : WF M) :
    ∀ u : Str,
      (scanSub M u = u ∧ (∀ a b, u = a ++ b → b ≠ [] → M b = none)) ∨
      ∃ a m r t, u = a ++ m ++ t ∧ M (m ++ t) = some (m, r, t) ∧
        (∀ a1 c a2, a = a1 ++ c :: a2 → M (c :: (a2 ++ m ++ t)) = none) ∧
        scanSub M u = a ++ r ++ scanSub M t := by
  intro u
  induction u with
  | nil =>
    left
    refine ⟨rfl, ?_⟩
    intro a b hab hb
    exact absurd (List.append_eq_nil.1 hab.symm).2 hb
  | cons c cs ih =>
    cases hM : M (c :: cs) with
    | some v =>
      obtain ⟨m, r, t⟩ := v
      right
      obtain ⟨he, _⟩ := hwf _ _ _ _ hM
      refine ⟨[], m, r, t, by simpa using he, by rw [← he]; exact hM, ?_, ?_⟩
      · intro a1 c' a2 h
        rcases a1 <;> cases h
      · rw [scan_cons_some hwf hM]
        simp
    | none =>
      rcases ih with ⟨hid, hno⟩ | ⟨a, m, r, t, he, hMf, hno, hscan⟩
      · left
        refine ⟨by rw [scan_cons_none hM, hid], ?_⟩
        intro a b hab hb
        cases a with
        | nil =>
          have hb' : b = c :: cs := by simpa using hab.symm
          rw [hb']
          exact hM
        | cons a0 a' =>
          rw [List.cons_append] at hab
          injection hab with _ h2
          exact hno a' b h2 hb
      · right
        refine ⟨c :: a, m, r, t, by simp [he], hMf, ?_, ?_⟩
        · intro a1 c' a2 h
          cases a1 with
          | nil =>
            injection h with h1 h2
            subst h1
            rw [← h2, ← he]
            exact hM
          | cons b0 b' =>
            rw [List.cons_append] at h
            injection h with _ h2
            exact hno b' c' a2 h2
        · rw [scan_cons_none hM, hscan, List.cons_append, List.cons_append]

/-- If no replacement ever contains `x` and `x` is not in the input, `x` is
not in the scanned output. -/
theorem scan_not_mem {M : Str → Option (Str × Str × Str)} (hwf : WF M)
    (x : Char) (hch : ∀ s m r t, M s = some (m, r, t) → x ∉ r) :
    ∀ u : Str, x ∉ u → x ∉ scanSub M u := by
  have key : ∀ n (u : Str), u.length ≤ n → x ∉ u → x ∉ scanSub M u := by
    intro n
    induction n with
    | zero =>
      intro u hu _
      have : u = [] := List.length_eq_zero.1 (by omega)
      subst this
      simp [scan_nil]
    | succ n ih =>
      intro u hu hx
      cases u with
      | nil => simp [scan_nil]
      | cons c cs =>
        cases hM : M (c :: cs) with
        | none =>
          rw [scan_cons_none hM]
          intro hmem
          rcases List.mem_cons.1 hmem with h | h
          · exact hx (h ▸ List.mem_cons_self _ _)
          · exact ih cs (by simp only [List.length_cons] at hu; omega)
              (fun h' => hx (List.mem_cons_of_mem _ h')) h
        | some v =>
          obtain ⟨m, r, t⟩ := v
          rw [scan_cons_some hwf hM]
          intro hmem
          rcases List.mem_append.1 hmem with h | h
          · exact hch _ _ _ _ hM h
          · have hxt : x ∉ t := by
              obtain ⟨he, _⟩ := hwf _ _ _ _ hM
              intro h'
              exact hx (he ▸ List.mem_append_right _ h')
            have hlt : t.length ≤ n := by
              have := length_rest_le hwf hM
              simp only [List.length_cons] at hu
              omega
            exact ih t hlt hxt h
  exact fun u => key u.length u (le_refl _)

/-- A short string that is an initial segment of a scanned output either was
an initial segment of the input or ends inside some replacement. -/
theorem scan_pre_bounded {M : Str → Option (Str × Str × Str)} (hwf : WF M) :
    ∀ (p cs : Str), (∀ s m r t, M s = some (m, r, t) → p.length < r.length) →
      IsPre p (scanSub M cs) →
      IsPre p cs ∨ ∃ a q, p = a ++ q ∧ q ≠ [] ∧
        ∃ s m r t, M s = some (m, r, t) ∧ IsPre q r := by
  have key : ∀ n (p cs : Str), cs.length ≤ n →
      (∀ s m r t, M s = some (m, r, t) → p.length < r.length) →
      IsPre p (scanSub M cs) →
      IsPre p cs ∨ ∃ a q, p = a ++ q ∧ q ≠ [] ∧
        ∃ s m r t, M s = some (m, r, t) ∧ IsPre q r := by
    intro n
    induction n with
    | zero =>
      intro p cs hcs _ h
      have : cs = [] := List.length_eq_zero.1 (by omega)
      subst this
      exact Or.inl h
    | succ n ih =>
      intro p cs hcs hp h
      cases cs with
      | nil => exact Or.inl h
      | cons c cs' =>
        cases hM : M (c :: cs') with
        | none =>
          rw [scan_cons_none hM] at h
          rcases IsPre_cons h with h0 | ⟨p', hp', h'⟩
          · subst h0
            exact Or.inl (IsPre_nil _)
          · rcases ih p' cs' (by simp only [List.length_cons] at hcs; omega)
              (fun s m r t hf => by
                have := hp s m r t hf
                rw [hp'] at this
                simp only [List.length_cons] at this
                omega) h' with h2 | ⟨a, q, hq1, hq2, hq3⟩
            · exact Or.inl (hp' ▸ IsPre_cons_of c h2)
            · exact Or.inr ⟨c :: a, q, by rw [hp', hq1, List.cons_append], hq2, hq3⟩
        | some v =>
          obtain ⟨m, r, t⟩ := v
          rw [scan_cons_some hwf hM] at h
          by_cases hpne : p = []
          · subst hpne
            exact Or.inl (IsPre_nil _)
          · have hlen : p.length ≤ r.length := le_of_lt (hp _ _ _ _ hM)
            have hpr : IsPre p r := IsPre_of_append_le h hlen
            exact Or.inr ⟨[], p, by simp, hpne, _, _, _, _, hM, hpr⟩
  exact fun p cs hp h => key cs.length p cs (le_refl _) hp h

/-- Failure to start with the anchoring literal is preserved by scanning with
any matcher whose replacements cannot recreate the literal across a boundary. -/
theorem not_pre_preserved {M : Str → Option (Str × Str × Str)} (hwf : WF M)
    (lit : Str) (hlitne : lit ≠ [])
    (hlong : ∀ s m r t, M s = some (m, r, t) → lit.length ≤ r.length)
    (hqr : ∀ s m r t, M s = some (m, r, t) →
      ∀ k, 0 < k → k < lit.length → ¬IsPre (lit.drop k) r)
    (c : Char) (cs : Str) (hnp : ¬IsPre lit (c :: cs)) :
    ¬IsPre lit (c :: scanSub M cs) := by
  intro hcon
  rcases IsPre_cons hcon with h0 | ⟨lt, hlt, h'⟩
  · exact hlitne h0
  · have hplen : ∀ s m r t, M s = some (m, r, t) → lt.length < r.length := by
      intro s m r t hf
      have h1 := hlong s m r t hf
      have : lit.length = lt.length + 1 := by rw [hlt]; simp
      omega
    rcases scan_pre_bounded hwf lt cs hplen h' with h2 | ⟨a, q, hq1, hq2, s, m, r, t, hf, hqr'⟩
    · exact hnp (by rw [hlt]; exact IsPre_cons_of c h2)
    · have hdrop : lit.drop (a.length + 1) = q := by
        rw [hlt, List.drop_succ_cons, hq1, List.drop_left]
      have hk1 : 0 < a.length + 1 := Nat.succ_pos _
      have hk2 : a.length + 1 < lit.length := by
        have hq : 0 < q.length := List.length_pos.2 hq2
        have : lit.length = lt.length + 1 := by rw [hlt]; simp
        have : lt.length = a.length + q.length := by rw [hq1]; simp
        omega
      exact hqr s m r t hf (a.length + 1) hk1 hk2 (hdrop ▸ hqr')

/-- The master stability theorem: under the five per-matcher obligations,
every scan output is stable, i.e. a second scan is the identity. -/
theorem scan_stableT {M : Str → Option (Str × Str × Str)} (hwf : WF M)
    (Good : Str → Prop)
    (h1 : ∀ s m r t, M s = some (m, r, t) → Good t)
    (h2 : ∀ s m r t, M s = some (m, r, t) → ∀ u, Good u → M (r ++ u) = some (r, r, u))
    (hrne : ∀ s m r t, M s = some (m, r, t) → r ≠ [])
    (hGoodScan : ∀ u, Good u → Good (scanSub M u))
    (h4 : ∀ c cs, M (c :: cs) = none → M (c :: scanSub M cs) = none) :
    ∀ s, StableT M (scanSub M s) := by
  have key : ∀ n (s : Str), s.length ≤ n → StableT M (scanSub M s) := by
    intro n
    induction n with
    | zero =>
      intro s hs
      have : s = [] := List.length_eq_zero.1 (by omega)
      subst this
      exact StableT.nil
    | succ n ih =>
      intro s hs
      cases s with
      | nil => exact StableT.nil
      | cons c cs =>
        cases hM : M (c :: cs) with
        | none =>
          rw [scan_cons_none hM]
          exact StableT.skip c (scanSub M cs) (h4 c cs hM)
            (ih cs (by simp only [List.length_cons] at hs; omega))
        | some v =>
          obtain ⟨m, r, t⟩ := v
          rw [scan_cons_some hwf hM]
          refine StableT.hit r (scanSub M t)
            (h2 _ _ _ _ hM _ (hGoodScan t (h1 _ _ _ _ hM))) (hrne _ _ _ _ hM) ?_
          have : t.length ≤ n := by
            have := length_rest_le hwf hM
            simp only [List.length_cons] at hs
            omega
          exact ih t this
  exact fun s => key s.length s (le_refl _)

/-- Idempotence of a single scan pass, from the per-matcher obligations. -/
theorem scan_idem {M : Str → Option (Str × Str × Str)} (hwf : WF M)
    (Good : Str → Prop)
    (h1 : ∀ s m r t, M s = some (m, r, t) → Good t)
    (h2 : ∀ s m r t, M s = some (m, r, t) → ∀ u, Good u → M (r ++ u) = some (r, r, u))
    (hrne : ∀ s m r t, M s = some (m, r, t) → r ≠ [])
    (hGoodScan : ∀ u, Good u → Good (scanSub M u))
    (h4 : ∀ c cs, M (c :: cs) = none → M (c :: scanSub M cs) = none) :
    ∀ s, scanSub M (scanSub M s) = scanSub M s :=
  fun s => stableT_scan_eq hwf (scan_stableT hwf Good h1 h2 hrne hGoodScan h4 s)

/-! ## Span and literal-strip lemmas -/

theorem head?_dropWhile (p : Char → Bool) :
    ∀ (l : Str) (c : Char), (l.dropWhile p).head? = some c → p c = false := by
  intro l
  induction l with
  | nil => intro c h; cases h
  | cons a as ih =>
    intro c h
    by_cases ha : p a
    · rw [List.dropWhile_cons_of_pos ha] at h
      exact ih c h
    · rw [List.dropWhile_cons_of_neg ha] at h
      injection h with h1
      subst h1
      exact Bool.not_eq_true _ ▸ ha

theorem mem_takeWhile (p : Char → Bool) :
    ∀ (l : Str) (c : Char), c ∈ l.takeWhile p → p c = true := by
  intro l
  induction l with
  | nil => intro c h; cases h
  | cons a as ih =>
    intro c h
    by_cases ha : p a
    · rw [List.takeWhile_cons_of_pos ha] at h
      rcases List.mem_cons.1 h with h' | h'
      · exact h' ▸ ha
      · exact ih c h'
    · rw [List.takeWhile_cons_of_neg ha] at h
      cases h

theorem takeWhile_append_of (p : Char → Bool) :
    ∀ (a b : Str), (∀ c ∈ a, p c = true) → (∀ c, b.head? = some c → p c = false) →
      (a ++ b).takeWhile p = a := by
  intro a
  induction a with
  | nil =>
    intro b _ hb
    cases b with
    | nil => rfl
    | cons c cs =>
      simp only [List.nil_append]
      exact List.takeWhile_cons_of_neg (by simp [hb c rfl])
  | cons x a' ih =>
    intro b ha hb
    rw [List.cons_append, List.takeWhile_cons_of_pos (ha x (List.mem_cons_self _ _)),
      ih b (fun c hc => ha c (List.mem_cons_of_mem _ hc)) hb]

theorem dropWhile_append_of (p : Char → Bool) :
    ∀ (a b : Str), (∀ c ∈ a, p c = true) → (∀ c, b.head? = some c → p c = false) →
      (a ++ b).dropWhile p = b := by
  intro a
  induction a with
  | nil =>
    intro b _ hb
    cases b with
    | nil => rfl
    | cons c cs =>
      simp only [List.nil_append]
      exact List.dropWhile_cons_of_neg (by simp [hb c rfl])
  | cons x a' ih =>
    intro b ha hb
    rw [List.cons_append, List.dropWhile_cons_of_pos (ha x (List.mem_cons_self _ _)),
      ih b (fun c hc => ha c (List.mem_cons_of_mem _ hc)) hb]

theorem stripPrefixL_of_append : ∀ p u : Str, stripPrefixL p (p ++ u) = some u := by
  intro p
  induction p with
  | nil => intro u; rfl
  | cons a as ih =>
    intro u
    rw [List.cons_append]
    simp only [stripPrefixL, if_pos rfl]
    exact ih u

theorem stripPrefixL_some : ∀ p s u : Str, stripPrefixL p s = some u → s = p ++ u := by
  intro p
  induction p with
  | nil =>
    intro s u h
    exact Option.some.inj h
  | cons a as ih =>
    intro s u h
    cases s with
    | nil => cases h
    | cons b bs =>
      simp only [stripPrefixL] at h
      by_cases hab : a = b
      · rw [if_pos hab] at h
        rw [List.cons_append, ← ih bs u h, hab]
      · rw [if_neg hab] at h
        cases h

theorem stripPrefixL_none : ∀ p s : Str, ¬IsPre p s → stripPrefixL p s = none := by
  intro p s h
  cases hx : stripPrefixL p s with
  | none => rfl
  | some u => exact absurd ⟨u, (stripPrefixL_some p s u hx).symm⟩ h

theorem IsPre_of_stripPrefixL {p s u : Str} (h : stripPrefixL p s = some u) : IsPre p s :=
  ⟨u, (stripPrefixL_some p s u h).symm⟩

/-! ## `parse3` characterization -/

/-- The decomposition behind a successful `\d+\.\d+\.\d+` parse. -/
def P3Decomp (m rest : Str) : Prop :=
  ∃ d1 d2 d3 : Str, m = d1 ++ '.' :: d2 ++ '.' :: d3 ∧
    d1 ≠ [] ∧ d2 ≠ [] ∧ d3 ≠ [] ∧
    (∀ c ∈ d1, c.isDigit = true) ∧ (∀ c ∈ d2, c.isDigit = true) ∧
    (∀ c ∈ d3, c.isDigit = true) ∧ NoDigHead rest

theorem parse3_some_decomp {s m rest : Str} (h : parse3 s = some (m, rest)) :
    s = m ++ rest ∧ P3Decomp m rest := by
  simp only [parse3, takeDigs] at h
  split at h
  · cases h
  · rename_i h1
    split at h
    · rename_i r2 hr1
      split at h
      · cases h
      · rename_i h2
        split at h
        · rename_i r4 hr3
          split at h
          · cases h
          · rename_i h3
            injection h with hpair
            injection hpair with hm hrest
            subst hrest
            constructor
            · rw [← hm]
              calc s = s.takeWhile Char.isDigit ++ s.dropWhile Char.isDigit :=
                    (List.takeWhile_append_dropWhile (p := Char.isDigit) (l := s)).symm
                _ = s.takeWhile Char.isDigit ++ ('.' :: r2) := by rw [hr1]
                _ = s.takeWhile Char.isDigit ++
                      ('.' :: (r2.takeWhile Char.isDigit ++ r2.dropWhile Char.isDigit)) := by
                    rw [List.takeWhile_append_dropWhile]
                _ = s.takeWhile Char.isDigit ++
                      ('.' :: (r2.takeWhile Char.isDigit ++ ('.' :: r4))) := by rw [hr3]
                _ = s.takeWhile Char.isDigit ++
                      ('.' :: (r2.takeWhile Char.isDigit ++
                        ('.' :: (r4.takeWhile Char.isDigit ++ r4.dropWhile Char.isDigit)))) := by
                    rw [List.takeWhile_append_dropWhile]
                _ = (s.takeWhile Char.isDigit ++ '.' :: r2.takeWhile Char.isDigit ++
                      '.' :: r4.takeWhile Char.isDigit) ++ r4.dropWhile Char.isDigit := by
                    simp
            · refine ⟨_, _, _, hm.symm, h1, h2, h3, ?_, ?_, ?_, ?_⟩
              · exact fun c hc => mem_takeWhile _ s c hc
              · exact fun c hc => mem_takeWhile _ r2 c hc
              · exact fun c hc => mem_takeWhile _ r4 c hc
              · exact fun c hc => head?_dropWhile Char.isDigit r4 c hc
        · cases h
    · cases h

theorem parse3_of_decomp {m rest : Str} (hd : P3Decomp m rest) :
    parse3 (m ++ rest) = some (m, rest) := by
  obtain ⟨d1, d2, d3, hm, h1, h2, h3, ha1, ha2, ha3, hrest⟩ := hd
  subst hm
  have hdot : ∀ (z : Str) (c : Char), ('.' :: z).head? = some c → c.isDigit = false := by
    intro z c hc
    injection hc with h'
    rw [← h']
    decide
  have hs : (d1 ++ '.' :: d2 ++ '.' :: d3) ++ rest =
      d1 ++ ('.' :: (d2 ++ ('.' :: (d3 ++ rest)))) := by simp
  rw [hs]
  have e1 := takeWhile_append_of Char.isDigit d1 ('.' :: (d2 ++ ('.' :: (d3 ++ rest)))) ha1
    (hdot _)
  have e2 := dropWhile_append_of Char.isDigit d1 ('.' :: (d2 ++ ('.' :: (d3 ++ rest)))) ha1
    (hdot _)
  have e3 := takeWhile_append_of Char.isDigit d2 ('.' :: (d3 ++ rest)) ha2 (hdot _)
  have e4 := dropWhile_append_of Char.isDigit d2 ('.' :: (d3 ++ rest)) ha2 (hdot _)
  have e5 := takeWhile_append_of Char.isDigit d3 rest ha3 fun c hc => hrest c hc
  have e6 := dropWhile_append_of Char.isDigit d3 rest ha3 fun c hc => hrest c hc
  simp only [parse3, takeDigs, e1, e2, if_neg h1, e3, e4, if_neg h2, e5, e6, if_neg h3]

theorem head?_append_left {a : Str} (b : Str) (ha : a ≠ []) :
    (a ++ b).head? = a.head? := by
  cases a with
  | nil => exact absurd rfl ha
  | cons c cs => rfl

theorem P3Decomp_chars {m rest : Str} (h : P3Decomp m rest) :
    ∀ c ∈ m, isDD c = true := by
  obtain ⟨d1, d2, d3, hm, _, _, _, ha1, ha2, ha3, _⟩ := h
  subst hm
  intro c hc
  simp only [List.append_assoc, List.cons_append, List.mem_append, List.mem_cons] at hc
  rcases hc with h | h | h | h | h
  · simp [isDD, ha1 c h]
  · simp [isDD, h]
  · simp [isDD, ha2 c h]
  · simp [isDD, h]
  · simp [isDD, ha3 c h]

theorem isDigit_false_of_isDD_false {c : Char} (h : isDD c = false) :
    c.isDigit = false := by
  simp only [isDD, Bool.or_eq_false_iff] at h
  exact h.1

theorem P3Decomp_ne_nil {m rest : Str} (h : P3Decomp m rest) : m ≠ [] := by
  obtain ⟨d1, d2, d3, hm, h1, _, _, _, _, _, _⟩ := h
  subst hm
  intro hc
  simp at hc

theorem P3Decomp_mono {m rest rest' : Str} (h : P3Decomp m rest)
    (h' : NoDigHead rest') : P3Decomp m rest' := by
  obtain ⟨d1, d2, d3, hm, h1, h2, h3, ha1, ha2, ha3, _⟩ := h
  exact ⟨d1, d2, d3, hm, h1, h2, h3, ha1, ha2, ha3, h'⟩

/-- Failure of the `\d+\.\d+\.\d+` shape is preserved when the suffix after a
shape-blocking head is replaced by another shape-blocked suffix. -/
theorem parse3_stable {a w w' : Str}
    (hw : ∀ c, w.head? = some c → isDD c = false)
    (hw' : ∀ c, w'.head? = some c → isDD c = false)
    (h : parse3 (a ++ w) = none) : parse3 (a ++ w') = none := by
  cases hx : parse3 (a ++ w') with
  | none => rfl
  | some v =>
    exfalso
    obtain ⟨p3, rest⟩ := v
    obtain ⟨heq, hdec⟩ := parse3_some_decomp hx
    have hchars := P3Decomp_chars hdec
    have hple : p3.length ≤ a.length := by
      by_contra hgt
      have hpa : IsPre a p3 :=
        IsPre_nested (IsPre_self_append a w') ⟨rest, heq.symm⟩ (by omega)
      obtain ⟨z, hz⟩ := hpa
      have hzne : z ≠ [] := by
        intro hznil
        rw [hznil, List.append_nil] at hz
        rw [hz] at hgt
        omega
      have hcancel : z ++ rest = w' := by
        have h0 : a ++ (z ++ rest) = a ++ w' := by
          rw [← List.append_assoc, hz, ← heq]
        exact List.append_cancel_left h0
      have hwne : w' ≠ [] := by
        intro hnil
        rw [hnil] at hcancel
        rcases List.append_eq_nil.1 hcancel with ⟨h', _⟩
        exact hzne h'
      have hhead : z.head? = w'.head? := by
        rw [← hcancel]
        exact (head?_append_left rest hzne).symm
      cases hzc : z.head? with
      | none => exact hzne (List.head?_eq_none_iff.1 hzc)
      | some zc =>
        have hdd : isDD zc = true := by
          apply hchars
          rw [← hz]
          apply List.mem_append_right
          exact List.mem_of_mem_head? hzc
        have : isDD zc = false := hw' zc (by rw [← hhead]; exact hzc)
        rw [this] at hdd
        cases hdd
    have hpa : IsPre p3 a := IsPre_nested ⟨rest, heq.symm⟩ (IsPre_self_append a w') hple
    obtain ⟨a2, ha2⟩ := hpa
    have hrest : rest = a2 ++ w' := by
      have h0 : p3 ++ rest = p3 ++ (a2 ++ w') := by
        rw [← heq, ← ha2, List.append_assoc]
      exact List.append_cancel_left h0
    have hnh : NoDigHead (a2 ++ w) := by
      intro c hc
      cases a2 with
      | nil =>
        simp only [List.nil_append] at hc
        exact isDigit_false_of_isDD_false (hw c hc)
      | cons x a2' =>
        obtain ⟨_, _, _, _, _, _, _, _, _, _, hnd⟩ := hdec
        have : rest.head? = some x := by rw [hrest]; rfl
        have hx' : x.isDigit = false := hnd x this
        injection hc with h'
        rw [← h']
        exact hx'
    have : parse3 (a ++ w) = some (p3, a2 ++ w) := by
      rw [← ha2, List.append_assoc]
      exact parse3_of_decomp (P3Decomp_mono hdec hnh)
    rw [this] at h
    cases h

/-! ## `matchVer` obligations -/

theorem matchVer_append (lit old w : Str) :
    matchVer lit old (lit ++ w) =
      match parse3 w with
      | none => none
      | some (m3, rest) => some (lit ++ m3, lit ++ old, rest) := by
  unfold matchVer
  rw [stripPrefixL_of_append]

theorem matchVer_some_inv {lit old s m r t : Str}
    (h : matchVer lit old s = some (m, r, t)) :
    ∃ m3, m = lit ++ m3 ∧ r = lit ++ old ∧ s = lit ++ m3 ++ t ∧ P3Decomp m3 t := by
  unfold matchVer at h
  rcases hstrip : stripPrefixL lit s with _ | u
  · rw [hstrip] at h
    cases h
  · simp only [hstrip] at h
    rcases hp : parse3 u with _ | ⟨m3, rest⟩
    · rw [hp] at h
      cases h
    · simp only [hp] at h
      injection h with h1
      injection h1 with ha hbc
      injection hbc with hb hc
      obtain ⟨hu, hdec⟩ := parse3_some_decomp hp
      subst hc
      refine ⟨m3, ha.symm, hb.symm, ?_, hdec⟩
      rw [stripPrefixL_some lit s u hstrip, hu, List.append_assoc]

theorem matchVer_wf (lit old : Str) (hlit : lit ≠ []) : WF (matchVer lit old) := by
  intro s m r t h
  obtain ⟨m3, hm, _, hs, hdec⟩ := matchVer_some_inv h
  constructor
  · rw [hs, hm, List.append_assoc]
  · rw [hm]
    intro hc
    exact hlit (List.append_eq_nil.1 hc).1

theorem matchVer_none_of_not_pre {lit old s : Str} (h : ¬IsPre lit s) :
    matchVer lit old s = none := by
  unfold matchVer
  rw [stripPrefixL_none lit s h]

theorem matchVer_fire_pre {lit old s m r t : Str}
    (h : matchVer lit old s = some (m, r, t)) : IsPre lit s := by
  obtain ⟨m3, _, _, hs, _⟩ := matchVer_some_inv h
  exact ⟨m3 ++ t, by rw [hs, List.append_assoc]⟩

theorem matchVer_good (lit old : Str) :
    ∀ s m r t, matchVer lit old s = some (m, r, t) → NoDigHead t := by
  intro s m r t h
  obtain ⟨m3, _, _, _, hdec⟩ := matchVer_some_inv h
  obtain ⟨_, _, _, _, _, _, _, _, _, _, hnd⟩ := hdec
  exact hnd

theorem matchVer_rematch {lit old : Str} (ht : Triple old) :
    ∀ s m r t, matchVer lit old s = some (m, r, t) →
      ∀ u, NoDigHead u → matchVer lit old (r ++ u) = some (r, r, u) := by
  intro s m r t h u hu
  obtain ⟨m3, _, hr, _, _⟩ := matchVer_some_inv h
  subst hr
  obtain ⟨_, hdec0⟩ := parse3_some_decomp ht
  have hdec : P3Decomp old u := P3Decomp_mono hdec0 hu
  have hp : parse3 (old ++ u) = some (old, u) := parse3_of_decomp hdec
  unfold matchVer
  rw [List.append_assoc]
  simp only [stripPrefixL_of_append, hp]

theorem matchVer_rne (lit old : Str) (hlit : lit ≠ []) :
    ∀ s m r t, matchVer lit old s = some (m, r, t) → r ≠ [] := by
  intro s m r t h
  obtain ⟨m3, _, hr, _, _⟩ := matchVer_some_inv h
  rw [hr]
  intro hc
  exact hlit (List.append_eq_nil.1 hc).1

theorem matchVer_goodScan (lit old : Str) (hlit : lit ≠ [])
    (hlithead : ∀ c, lit.head? = some c → c.isDigit = false) :
    ∀ u, NoDigHead u → NoDigHead (scanSub (matchVer lit old) u) := by
  intro u hu
  cases u with
  | nil => intro c hc; cases hc
  | cons x cs =>
    cases hM : matchVer lit old (x :: cs) with
    | none =>
      rw [scan_cons_none hM]
      intro c hc
      exact hu c (by injection hc with h'; rw [h']; rfl)
    | some v =>
      obtain ⟨m, r, t⟩ := v
      rw [scan_cons_some (matchVer_wf lit old hlit) hM]
      obtain ⟨m3, _, hr, _, _⟩ := matchVer_some_inv hM
      intro c hc
      apply hlithead
      rw [← hc]
      have hrne : r ≠ [] := by
        rw [hr]; intro hcon; exact hlit (List.append_eq_nil.1 hcon).1
      rw [head?_append_left _ hrne, hr, head?_append_left _ hlit]

/-- Overlap-freedom instantiated for `matchVer`'s own replacements. -/
theorem matchVer_hqr {lit old : Str}
    (hnov : ∀ k, 0 < k → k < lit.length → ¬IsPre (lit.drop k) lit) :
    ∀ s m r t, matchVer lit old s = some (m, r, t) →
      ∀ k, 0 < k → k < lit.length → ¬IsPre (lit.drop k) r := by
  intro s m r t h k hk1 hk2 hcon
  obtain ⟨m3, _, hr, _, _⟩ := matchVer_some_inv h
  subst hr
  have : IsPre (lit.drop k) lit :=
    IsPre_nested hcon (IsPre_self_append lit old)
      (by have := List.length_drop k lit; omega)
  exact hnov k hk1 hk2 this

theorem matchVer_h4 {lit old : Str} (hlit : lit ≠ [])
    (hlithead : ∀ c, lit.head? = some c → isDD c = false)
    (hnov : ∀ k, 0 < k → k < lit.length → ¬IsPre (lit.drop k) lit) :
    ∀ c cs, matchVer lit old (c :: cs) = none →
      matchVer lit old (c :: scanSub (matchVer lit old) cs) = none := by
  intro c cs h
  have hwf := matchVer_wf lit old hlit
  by_cases hpre : IsPre lit (c :: cs)
  · -- the literal matches but the version shape fails; it still fails after the scan
    obtain ⟨u, hu⟩ := hpre
    cases lit with
    | nil => exact absurd rfl hlit
    | cons lc lt =>
      rw [List.cons_append] at hu
      injection hu with hu1 hu2
      subst hu1
      -- cs = lt ++ u and the shape parse on u failed
      have hp3 : parse3 u = none := by
        cases hp : parse3 u with
        | none => rfl
        | some v =>
          obtain ⟨m3, rest⟩ := v
          exfalso
          have hsome : matchVer (lc :: lt) old (lc :: cs) =
              some ((lc :: lt) ++ m3, (lc :: lt) ++ old, rest) := by
            rw [show lc :: cs = (lc :: lt) ++ u from by rw [List.cons_append, hu2]]
            unfold matchVer
            simp only [stripPrefixL_of_append, hp]
          rw [hsome] at h
          cases h
      -- the scan cannot fire inside the literal span
      have hskip : scanSub (matchVer (lc :: lt) old) cs =
          lt ++ scanSub (matchVer (lc :: lt) old) u := by
        rw [← hu2]
        apply scan_append_skip
        intro a1 c' a2 hsplit
        apply matchVer_none_of_not_pre
        intro hcon
        have hdrop : (lc :: lt).drop (a1.length + 1) = c' :: a2 := by
          rw [List.drop_succ_cons, hsplit, List.drop_left]
        have hlsplit : lt.length = a1.length + (c' :: a2).length := by
          rw [hsplit]; simp
        have hk2 : a1.length + 1 < (lc :: lt).length := by
          simp only [List.length_cons] at hlsplit ⊢
          omega
        have hlen : (c' :: a2).length < (lc :: lt).length := by
          simp only [List.length_cons] at hlsplit ⊢
          omega
        have hnested : IsPre (c' :: a2) (lc :: lt) :=
          IsPre_nested (IsPre_self_append (c' :: a2) u) hcon (le_of_lt hlen)
        rw [← hdrop] at hnested
        exact hnov (a1.length + 1) (Nat.succ_pos _) hk2 hnested
      -- the shape parse still fails on the scanned tail
      have hfireHead : ∀ s0 m0 r0 t0, matchVer (lc :: lt) old s0 = some (m0, r0, t0) →
          m0.head? = some lc ∧ r0.head? = some lc := by
        intro s0 m0 r0 t0 hf
        obtain ⟨m3, hm0, hr0, _, _⟩ := matchVer_some_inv hf
        constructor
        · rw [hm0]; rfl
        · rw [hr0]; rfl
      have hcdd : isDD lc = false := hlithead lc rfl
      have hp3' : parse3 (scanSub (matchVer (lc :: lt) old) u) = none := by
        rcases scan_decomp hwf u with ⟨hid, _⟩ | ⟨a, m, r, t0, he, hf, _, hscan⟩
        · rw [hid]; exact hp3
        · rw [hscan]
          obtain ⟨hm0, hr0⟩ := hfireHead _ _ _ _ hf
          have hmne : m ≠ [] := by
            intro hc0
            rw [hc0] at hm0
            cases hm0
          have hrne : r ≠ [] := by
            intro hc0
            rw [hc0] at hr0
            cases hr0
          have hw : ∀ x, (m ++ t0).head? = some x → isDD x = false := by
            intro x hx
            rw [head?_append_left _ hmne, hm0] at hx
            injection hx with hx'
            rw [← hx']
            exact hcdd
          have hw' : ∀ x, (r ++ scanSub (matchVer (lc :: lt) old) t0).head? = some x →
              isDD x = false := by
            intro x hx
            rw [head?_append_left _ hrne, hr0] at hx
            injection hx with hx'
            rw [← hx']
            exact hcdd
          have hfail : parse3 (a ++ (m ++ t0)) = none := by
            rw [← List.append_assoc, ← he]
            exact hp3
          have hst := parse3_stable hw hw' hfail
          rw [← List.append_assoc] at hst
          exact hst
      rw [hskip]
      show matchVer (lc :: lt) old ((lc :: lt) ++ scanSub (matchVer (lc :: lt) old) u) = none
      rw [matchVer_append, hp3']
  · have h4a := not_pre_preserved hwf lit hlit
      (fun s m r t hf => by
        obtain ⟨m3, _, hr, _, _⟩ := matchVer_some_inv hf
        rw [hr, List.length_append]
        omega)
      (matchVer_hqr hnov) c cs hpre
    exact matchVer_none_of_not_pre h4a

/-- Idempotence of a `matchVer`-based substitution pass. -/
theorem matchVer_idem {lit old : Str} (hlit : lit ≠ [])
    (hlithead : ∀ c, lit.head? = some c → isDD c = false)
    (hnov : ∀ k, 0 < k → k < lit.length → ¬IsPre (lit.drop k) lit)
    (ht : Triple old) :
    ∀ s, scanSub (matchVer lit old) (scanSub (matchVer lit old) s) =
      scanSub (matchVer lit old) s :=
  scan_idem (matchVer_wf lit old hlit) NoDigHead
    (matchVer_good lit old)
    (fun s m r t h => matchVer_rematch ht s m r t h)
    (matchVer_rne lit old hlit)
    (matchVer_goodScan lit old hlit
      (fun c hc => isDigit_false_of_isDD_false (hlithead c hc)))
    (matchVer_h4 hlit hlithead hnov)

/-! ## Concrete facts about the anchoring literals -/

theorem litPgAt_ne : litPgAt ≠ [] := by decide

theorem litDock_ne : litDock ≠ [] := by decide

theorem litPgv_ne : litPgv ≠ [] := by decide

theorem litBake_ne : litBake ≠ [] := by decide

theorem litMise_ne : litMise ≠ [] := by decide

theorem litPgAt_head : ∀ c, litPgAt.head? = some c → isDD c = false := by
  intro c hc
  have h0 : litPgAt.head? = some 'p' := by decide
  rw [h0] at hc
  injection hc with h'
  rw [← h']
  decide

theorem litDock_head : ∀ c, litDock.head? = some c → isDD c = false := by
  intro c hc
  have h0 : litDock.head? = some 'P' := by decide
  rw [h0] at hc
  injection hc with h'
  rw [← h']
  decide

theorem litPgAt_novB : ∀ k, k < litPgAt.length → 0 < k →
    isPreB (litPgAt.drop k) litPgAt = false := by decide

theorem litDock_novB : ∀ k, k < litDock.length → 0 < k →
    isPreB (litDock.drop k) litDock = false := by decide

theorem litPgv_novB : ∀ k, k < litPgv.length → 0 < k →
    isPreB (litPgv.drop k) litPgv = false := by decide

theorem litBake_novB : ∀ k, k < litBake.length → 0 < k →
    isPreB (litBake.drop k) litBake = false := by decide

theorem litMise_novB : ∀ k, k < litMise.length → 0 < k →
    isPreB (litMise.drop k) litMise = false := by decide

theorem nov_of_novB {lit : Str}
    (h : ∀ k, k < lit.length → 0 < k → isPreB (lit.drop k) lit = false) :
    ∀ k, 0 < k → k < lit.length → ¬IsPre (lit.drop k) lit := by
  intro k h1 h2 hcon
  have hb := h k h2 h1
  rw [(isPreB_iff _ _).2 hcon] at hb
  cases hb

theorem litPgAt_nov : ∀ k, 0 < k → k < litPgAt.length → ¬IsPre (litPgAt.drop k) litPgAt :=
  nov_of_novB litPgAt_novB

theorem litDock_nov : ∀ k, 0 < k → k < litDock.length → ¬IsPre (litDock.drop k) litDock :=
  nov_of_novB litDock_novB

theorem litPgv_nov : ∀ k, 0 < k → k < litPgv.length → ¬IsPre (litPgv.drop k) litPgv :=
  nov_of_novB litPgv_novB

theorem litBake_nov : ∀ k, 0 < k → k < litBake.length → ¬IsPre (litBake.drop k) litBake :=
  nov_of_novB litBake_novB

theorem litMise_nov : ∀ k, 0 < k → k < litMise.length → ¬IsPre (litMise.drop k) litMise :=
  nov_of_novB litMise_novB

/-! ## `matchBake` obligations -/

theorem ne_rbrace_of_isDD {c : Char} (h : isDD c = true) : c ≠ '}' := by
  intro he
  rw [he] at h
  exact absurd h (by decide)

theorem mem_of_majorPart {c : Char} {v : Str} (h : c ∈ majorPart v) : c ∈ v :=
  List.takeWhile_subset _ h

theorem bakeShape_of {b1 b2 rest : Str} (hb1 : b1 ≠ [])
    (hb1m : ∀ c ∈ b1, c ≠ '}') (hb2m : ∀ c ∈ b2, c ≠ '}') :
    bakeShape (b1 ++ '}' :: (b2 ++ '}' :: rest)) = some (b1, b2, rest) := by
  have hp1 : ∀ c ∈ b1, (fun c => decide (c ≠ '}')) c = true := by
    intro c hc
    simp [hb1m c hc]
  have hp2 : ∀ c ∈ b2, (fun c => decide (c ≠ '}')) c = true := by
    intro c hc
    simp [hb2m c hc]
  have hhd : ∀ (z : Str) (c : Char), ('}' :: z).head? = some c →
      (fun c => decide (c ≠ '}')) c = false := by
    intro z c hc
    injection hc with h'
    simp [← h']
  have e1 := takeWhile_append_of _ b1 ('}' :: (b2 ++ '}' :: rest)) hp1 (hhd _)
  have e2 := dropWhile_append_of _ b1 ('}' :: (b2 ++ '}' :: rest)) hp1 (hhd _)
  have e3 := takeWhile_append_of _ b2 ('}' :: rest) hp2 (hhd _)
  have e4 := dropWhile_append_of _ b2 ('}' :: rest) hp2 (hhd _)
  simp only [bakeShape, e1, e2, if_neg hb1, e3, e4]

theorem bakeShape_some_inv {u b1 b2 rest : Str}
    (h : bakeShape u = some (b1, b2, rest)) :
    u = b1 ++ '}' :: (b2 ++ '}' :: rest) ∧ b1 ≠ [] ∧
      (∀ c ∈ b1, c ≠ '}') ∧ (∀ c ∈ b2, c ≠ '}') := by
  simp only [bakeShape] at h
  split at h
  · cases h
  · rename_i hne
    split at h
    · rename_i w hw
      split at h
      · rename_i rest' hrest
        injection h with hpair
        injection hpair with h1 h23
        injection h23 with h2 h3
        subst h1
        subst h2
        subst h3
        refine ⟨?_, hne, ?_, ?_⟩
        · calc u = u.takeWhile (fun c => decide (c ≠ '}')) ++
                  u.dropWhile (fun c => decide (c ≠ '}')) :=
                (List.takeWhile_append_dropWhile (p := fun c => decide (c ≠ '}'))
                  (l := u)).symm
            _ = u.takeWhile (fun c => decide (c ≠ '}')) ++ ('}' :: w) := by rw [hw]
            _ = u.takeWhile (fun c => decide (c ≠ '}')) ++
                  ('}' :: (w.takeWhile (fun c => decide (c ≠ '}')) ++
                    w.dropWhile (fun c => decide (c ≠ '}')))) := by
                rw [List.takeWhile_append_dropWhile]
            _ = u.takeWhile (fun c => decide (c ≠ '}')) ++
                  ('}' :: (w.takeWhile (fun c => decide (c ≠ '}')) ++ '}' :: rest')) := by
                rw [hrest]
        · exact fun c hc => of_decide_eq_true (mem_takeWhile _ u c hc)
        · exact fun c hc => of_decide_eq_true (mem_takeWhile _ w c hc)
      · cases h
    · cases h

theorem matchBake_append (n o w : Str) :
    matchBake n o (litBake ++ w) =
      match bakeShape w with
      | none => none
      | some (b1, b2, rest) =>
          some (litBake ++ b1 ++ '}' :: b2 ++ ['}'], bakeBlock n o, rest) := by
  unfold matchBake
  rw [stripPrefixL_of_append]

theorem matchBake_some_inv {n o s m r t : Str} (h : matchBake n o s = some (m, r, t)) :
    ∃ b1 b2, m = litBake ++ b1 ++ '}' :: b2 ++ ['}'] ∧ r = bakeBlock n o ∧
      s = m ++ t ∧ b1 ≠ [] ∧ (∀ c ∈ b1, c ≠ '}') ∧ (∀ c ∈ b2, c ≠ '}') := by
  unfold matchBake at h
  rcases hstrip : stripPrefixL litBake s with _ | u
  · rw [hstrip] at h
    cases h
  · simp only [hstrip] at h
    rcases hb : bakeShape u with _ | ⟨b1, b2, rest⟩
    · rw [hb] at h
      cases h
    · simp only [hb] at h
      injection h with h1
      injection h1 with ha hbc
      injection hbc with hb' hc
      obtain ⟨hu, hne, hm1, hm2⟩ := bakeShape_some_inv hb
      subst hc
      subst ha
      subst hb'
      refine ⟨b1, b2, rfl, rfl, ?_, hne, hm1, hm2⟩
      rw [stripPrefixL_some litBake s u hstrip, hu]
      simp

theorem matchBake_wf (n o : Str) : WF (matchBake n o) := by
  intro s m r t h
  obtain ⟨b1, b2, hm, _, hs, _, _, _⟩ := matchBake_some_inv h
  refine ⟨hs, ?_⟩
  rw [hm]
  intro hcon
  exact (by decide : (['}'] : Str) ≠ []) (List.append_eq_nil.1 hcon).2

theorem matchBake_none_of_not_pre {n o s : Str} (h : ¬IsPre litBake s) :
    matchBake n o s = none := by
  unfold matchBake
  rw [stripPrefixL_none litBake s h]

theorem bakeBlock_ne (n o : Str) : bakeBlock n o ≠ [] := by
  unfold bakeBlock
  intro hcon
  exact (by decide : ("\"\n  \x7d\n\x7d".toList : Str) ≠ [])
    (List.append_eq_nil.1 hcon).2

theorem bake_head_split : "variable \"PG_VERSIONS\" \x7b\n  default = \x7b\n    pg".toList =
    litBake ++ "\n  default = \x7b\n    pg".toList := by decide

theorem bake_tail_split : "\"\n  \x7d\n\x7d".toList =
    "\"\n  ".toList ++ '}' :: ('\n' :: ['}']) := by decide

theorem bakeBlock_decomp (n o u : Str) :
    bakeBlock n o ++ u = litBake ++ (bakeB1 n o ++ '}' :: (['\n'] ++ '}' :: u)) := by
  unfold bakeBlock bakeB1
  rw [bake_head_split, bake_tail_split]
  simp

theorem bakeB1_ne (n o : Str) : bakeB1 n o ≠ [] := by
  unfold bakeB1
  intro hcon
  exact (by decide : ("\"\n  ".toList : Str) ≠ []) (List.append_eq_nil.1 hcon).2

theorem bakeB1_no_rbrace {n o : Str} (hn : DigitDot n) (ho : DigitDot o) :
    ∀ c ∈ bakeB1 n o, c ≠ '}' := by
  intro c hc
  unfold bakeB1 at hc
  simp only [List.append_assoc, List.mem_append] at hc
  rcases hc with h | h | h | h | h | h | h | h | h
  · exact (by decide : ∀ c ∈ ("\n  default = \x7b\n    pg".toList : Str), c ≠ '}') c h
  · exact ne_rbrace_of_isDD (ho.2 c (mem_of_majorPart h))
  · exact (by decide : ∀ c ∈ (" = \"".toList : Str), c ≠ '}') c h
  · exact ne_rbrace_of_isDD (ho.2 c h)
  · exact (by decide : ∀ c ∈ ("\"\n    pg".toList : Str), c ≠ '}') c h
  · exact ne_rbrace_of_isDD (hn.2 c (mem_of_majorPart h))
  · exact (by decide : ∀ c ∈ (" = \"".toList : Str), c ≠ '}') c h
  · exact ne_rbrace_of_isDD (hn.2 c h)
  · exact (by decide : ∀ c ∈ ("\"\n  ".toList : Str), c ≠ '}') c h

theorem matchBake_rematch {n o : Str} (hn : DigitDot n) (ho : DigitDot o) :
    ∀ u, matchBake n o (bakeBlock n o ++ u) = some (bakeBlock n o, bakeBlock n o, u) := by
  intro u
  have hm : litBake ++ bakeB1 n o ++ '}' :: ['\n'] ++ ['}'] = bakeBlock n o := by
    have h2 := bakeBlock_decomp n o []
    rw [List.append_nil] at h2
    rw [h2]
    simp
  rw [bakeBlock_decomp, matchBake_append,
    bakeShape_of (bakeB1_ne n o) (bakeB1_no_rbrace hn ho)
      (by decide : ∀ c ∈ (['\n'] : Str), c ≠ '}')]
  show some (litBake ++ bakeB1 n o ++ '}' :: ['\n'] ++ ['}'], bakeBlock n o, u) =
    some (bakeBlock n o, bakeBlock n o, u)
  rw [hm]

/-- A scan pass preserves the count of any character whose count every
replacement preserves. -/
theorem scan_count {M : Str → Option (Str × Str × Str)} (hwf : WF M) (x : Char)
    (hc : ∀ s m r t, M s = some (m, r, t) → m.count x = r.count x) :
    ∀ u : Str, (scanSub M u).count x = u.count x := by
  have key : ∀ k (u : Str), u.length ≤ k → (scanSub M u).count x = u.count x := by
    intro k
    induction k with
    | zero =>
      intro u hu
      have : u = [] := List.length_eq_zero.1 (by omega)
      subst this
      rw [scan_nil]
    | succ k ih =>
      intro u hu
      cases u with
      | nil => rw [scan_nil]
      | cons c cs =>
        cases hM : M (c :: cs) with
        | none =>
          rw [scan_cons_none hM, List.count_cons, List.count_cons,
            ih cs (by simp only [List.length_cons] at hu; omega)]
        | some v =>
          obtain ⟨m, r, t⟩ := v
          rw [scan_cons_some hwf hM]
          obtain ⟨he, _⟩ := hwf _ _ _ _ hM
          rw [he, List.count_append, List.count_append, hc _ _ _ _ hM,
            ih t (by
              have := length_rest_le hwf hM
              simp only [List.length_cons] at hu
              omega)]
  exact fun u => key u.length u (le_refl _)

theorem matchBake_count_m {n o s m r t : Str} (h : matchBake n o s = some (m, r, t)) :
    m.count '}' = 2 := by
  obtain ⟨b1, b2, hm, _, _, _, hm1, hm2⟩ := matchBake_some_inv h
  subst hm
  have h1 : b1.count '}' = 0 := List.count_eq_zero.2 (fun hc0 => hm1 '}' hc0 rfl)
  have h2 : b2.count '}' = 0 := List.count_eq_zero.2 (fun hc0 => hm2 '}' hc0 rfl)
  have h0 : litBake.count '}' = 0 := by decide
  rw [List.count_append, List.count_append, List.count_append, List.count_cons_self,
    h0, h1, h2]
  decide

theorem bakeBlock_count {n o : Str} (hn : DigitDot n) (ho : DigitDot o) :
    (bakeBlock n o).count '}' = 2 := by
  have hb1 : (bakeB1 n o).count '}' = 0 :=
    List.count_eq_zero.2 (fun hc0 => bakeB1_no_rbrace hn ho '}' hc0 rfl)
  have hlit : litBake.count '}' = 0 := by decide
  have hd := bakeBlock_decomp n o []
  rw [List.append_nil] at hd
  rw [hd, List.count_append, List.count_append, hlit, hb1]
  have h2 : (('}' :: (['\n'] ++ '}' :: [])) : Str).count '}' = 2 := by decide
  rw [h2]

theorem bakeShape_nil : bakeShape [] = none := rfl

theorem bakeShape_none_of_head {u : Str} (h : u.head? = some '}') :
    bakeShape u = none := by
  cases u with
  | nil => cases h
  | cons c cs =>
    injection h with h'
    subst h'
    have ht : (('}' :: cs) : Str).takeWhile (fun c => decide (c ≠ '}')) = [] :=
      List.takeWhile_cons_of_neg (by decide)
    simp [bakeShape, ht]

theorem dropWhile_ne_nil_of_mem {p : Char → Bool} {u : Str} {x : Char}
    (hx : x ∈ u) (hpx : p x = false) : u.dropWhile p ≠ [] := by
  intro hcon
  have hu : u.takeWhile p = u := by
    have h0 := List.takeWhile_append_dropWhile (p := p) (l := u)
    rw [hcon, List.append_nil] at h0
    exact h0
  have hx' : x ∈ u.takeWhile p := by rw [hu]; exact hx
  have := mem_takeWhile p u x hx'
  rw [hpx] at this
  cases this

theorem dropWhile_rbrace {u : Str}
    (h : u.dropWhile (fun c => decide (c ≠ '}')) ≠ []) :
    ∃ w, u.dropWhile (fun c => decide (c ≠ '}')) = '}' :: w := by
  cases hd : u.dropWhile (fun c => decide (c ≠ '}')) with
  | nil => exact absurd hd h
  | cons d w =>
    have hfalse := head?_dropWhile _ u d (by rw [hd]; rfl)
    have hdj : d = '}' := by
      by_contra hne
      simp [hne] at hfalse
    exact ⟨w, by rw [hdj]⟩

theorem mem_of_count_pos {u : Str} {x : Char} (h : 0 < u.count x) : x ∈ u := by
  by_contra hx
  rw [List.count_eq_zero.2 hx] at h
  omega

theorem count_takeWhile_rbrace (u : Str) :
    (u.takeWhile (fun c => decide (c ≠ '}'))).count '}' = 0 := by
  apply List.count_eq_zero.2
  intro hmem
  have := mem_takeWhile _ u '}' hmem
  exact absurd this (by decide)

theorem bakeShape_some_of_count {u : Str} (hne : u ≠ [])
    (hhd : u.head? ≠ some '}') (hcnt : 2 ≤ u.count '}') :
    ∃ b1 b2 rest, bakeShape u = some (b1, b2, rest) := by
  have hmem : '}' ∈ u := mem_of_count_pos (by omega)
  have hd1 : u.dropWhile (fun c => decide (c ≠ '}')) ≠ [] :=
    dropWhile_ne_nil_of_mem hmem (by decide)
  obtain ⟨w, hw⟩ := dropWhile_rbrace hd1
  have hb1ne : u.takeWhile (fun c => decide (c ≠ '}')) ≠ [] := by
    cases u with
    | nil => exact absurd rfl hne
    | cons c cs =>
      have hc : c ≠ '}' := by
        intro h0
        exact hhd (by rw [h0]; rfl)
      rw [List.takeWhile_cons_of_pos (by simp [hc])]
      intro h0
      cases h0
  have hcw : 1 ≤ w.count '}' := by
    have hsplit := List.takeWhile_append_dropWhile
      (p := fun c => decide (c ≠ '}')) (l := u)
    have : u.count '}' = (u.takeWhile (fun c => decide (c ≠ '}'))).count '}' +
        (u.dropWhile (fun c => decide (c ≠ '}'))).count '}' := by
      rw [← List.count_append, hsplit]
    rw [count_takeWhile_rbrace, hw, List.count_cons_self] at this
    omega
  have hmw : '}' ∈ w := mem_of_count_pos (by omega)
  have hd2 : w.dropWhile (fun c => decide (c ≠ '}')) ≠ [] :=
    dropWhile_ne_nil_of_mem hmw (by decide)
  obtain ⟨rest, hrest⟩ := dropWhile_rbrace hd2
  refine ⟨u.takeWhile (fun c => decide (c ≠ '}')),
    w.takeWhile (fun c => decide (c ≠ '}')), rest, ?_⟩
  simp only [bakeShape, hw, hrest, if_neg hb1ne]

theorem bakeShape_none_cases {u : Str} (h : bakeShape u = none) :
    u = [] ∨ u.head? = some '}' ∨ u.count '}' < 2 := by
  by_contra hcon
  push_neg at hcon
  obtain ⟨h1, h2, h3⟩ := hcon
  obtain ⟨b1, b2, rest, hb⟩ := bakeShape_some_of_count h1 h2 (by omega)
  rw [hb] at h
  cases h

theorem bakeShape_none_of_count {u : Str} (h : u.count '}' < 2) :
    bakeShape u = none := by
  cases hb : bakeShape u with
  | none => rfl
  | some v =>
    obtain ⟨b1, b2, rest⟩ := v
    exfalso
    obtain ⟨hu, _, _, _⟩ := bakeShape_some_inv hb
    rw [hu, List.count_append, List.count_cons_self, List.count_append,
      List.count_cons_self] at h
    omega

theorem cons_of_pre {lit u : Str} {c : Char} {cs : Str} (hne : lit ≠ [])
    (h : lit ++ u = c :: cs) : ∃ lt, lit = c :: lt ∧ cs = lt ++ u := by
  cases lit with
  | nil => exact absurd rfl hne
  | cons a as =>
    rw [List.cons_append] at h
    injection h with h1 h2
    exact ⟨as, by rw [h1], h2.symm⟩

theorem matchBake_h4 {n o : Str} (hn : DigitDot n) (ho : DigitDot o) :
    ∀ c cs, matchBake n o (c :: cs) = none →
      matchBake n o (c :: scanSub (matchBake n o) cs) = none := by
  intro c cs h
  have hwf := matchBake_wf n o
  by_cases hpre : IsPre litBake (c :: cs)
  · obtain ⟨u, hu⟩ := hpre
    obtain ⟨lt, hlb, hcs⟩ := cons_of_pre litBake_ne hu
    have hlen1 : litBake.length = lt.length + 1 := by
      rw [hlb]
      simp
    -- the shape failed on `u`, else the matcher would have fired
    have hsh : bakeShape u = none := by
      cases hp : bakeShape u with
      | none => rfl
      | some v =>
        obtain ⟨b1, b2, rest⟩ := v
        exfalso
        have hsome := matchBake_append n o u
        rw [hu, h] at hsome
        simp only [hp] at hsome
        cases hsome
    -- the scan cannot fire inside the literal span
    have hskip : scanSub (matchBake n o) cs = lt ++ scanSub (matchBake n o) u := by
      rw [hcs]
      apply scan_append_skip
      intro a1 c' a2 hsplit
      apply matchBake_none_of_not_pre
      intro hcon
      have hdrop : litBake.drop (a1.length + 1) = c' :: a2 := by
        rw [hlb, List.drop_succ_cons, hsplit, List.drop_left]
      have hlsplit : lt.length = a1.length + (a2.length + 1) := by
        rw [hsplit]
        simp
      have hk2 : a1.length + 1 < litBake.length := by omega
      have hlen : (c' :: a2).length < litBake.length := by
        simp only [List.length_cons]
        omega
      have hnested : IsPre (c' :: a2) litBake :=
        IsPre_nested (IsPre_self_append (c' :: a2) u) hcon (le_of_lt hlen)
      rw [← hdrop] at hnested
      exact litBake_nov (a1.length + 1) (Nat.succ_pos _) hk2 hnested
    -- the shape still fails on the scanned tail
    have hsh' : bakeShape (scanSub (matchBake n o) u) = none := by
      rcases bakeShape_none_cases hsh with h0 | h0 | h0
      · subst h0
        rw [scan_nil]
        exact bakeShape_nil
      · cases u with
        | nil =>
          rw [scan_nil]
          exact bakeShape_nil
        | cons d u' =>
          injection h0 with hd0
          subst hd0
          have hM : matchBake n o ('}' :: u') = none := by
            apply matchBake_none_of_not_pre
            intro hcon
            obtain ⟨w0, hw0⟩ := hcon
            obtain ⟨lt0, hlb0, _⟩ := cons_of_pre litBake_ne hw0
            have h1 : litBake.head? = some '}' := by rw [hlb0]; rfl
            rw [(by decide : litBake.head? = some 'v')] at h1
            injection h1 with h2
            exact absurd h2 (by decide)
          rw [scan_cons_none hM]
          exact bakeShape_none_of_head rfl
      · have hcnt := scan_count hwf '}'
          (fun s m r t hf => by
            obtain ⟨b1, b2, _, hr, _, _, _, _⟩ := matchBake_some_inv hf
            rw [matchBake_count_m hf, hr, bakeBlock_count hn ho]) u
        apply bakeShape_none_of_count
        rw [hcnt]
        exact h0
    have hfinal : c :: scanSub (matchBake n o) cs =
        litBake ++ scanSub (matchBake n o) u := by
      rw [hskip, hlb]
      rfl
    rw [hfinal, matchBake_append]
    simp only [hsh']
  · have h4a := not_pre_preserved hwf litBake litBake_ne
      (fun s m r t hf => by
        obtain ⟨b1, b2, _, hr, _, _, _, _⟩ := matchBake_some_inv hf
        have hd := bakeBlock_decomp n o []
        rw [List.append_nil] at hd
        rw [hr, hd, List.length_append]
        omega)
      (fun s m r t hf k hk1 hk2 hcon => by
        obtain ⟨b1, b2, _, hr, _, _, _, _⟩ := matchBake_some_inv hf
        subst hr
        have hd := bakeBlock_decomp n o []
        rw [List.append_nil] at hd
        rw [hd] at hcon
        have hnest : IsPre (litBake.drop k) litBake :=
          IsPre_nested hcon (IsPre_self_append litBake _)
            (by have := List.length_drop k litBake; omega)
        exact litBake_nov k hk1 hk2 hnest)
      c cs hpre
    exact matchBake_none_of_not_pre h4a

/-- Idempotence of the docker-bake substitution pass. -/
theorem matchBake_idem {n o : Str} (hn : DigitDot n) (ho : DigitDot o) :
    ∀ s, scanSub (matchBake n o) (scanSub (matchBake n o) s) =
      scanSub (matchBake n o) s :=
  scan_idem (matchBake_wf n o) (fun _ => True)
    (fun _ _ _ _ _ => trivial)
    (fun s m r t h u _ => by
      obtain ⟨b1, b2, _, hr, _, _, _, _⟩ := matchBake_some_inv h
      subst hr
      exact matchBake_rematch hn ho u)
    (fun s m r t h => by
      obtain ⟨b1, b2, _, hr, _, _, _, _⟩ := matchBake_some_inv h
      rw [hr]
      exact bakeBlock_ne n o)
    (fun u _ => trivial)
    (matchBake_h4 hn ho)

/-! ## `matchMise` obligations -/

theorem matchMise_append (n o w : Str) :
    matchMise n o (litMise ++ w) =
      match miseShape w with
      | none => none
      | some (mu, rest) => some (litMise ++ mu, miseRepl n o, rest) := by
  unfold matchMise
  rw [stripPrefixL_of_append]

theorem miseShape_some_decomp {u mu rest : Str} (h : miseShape u = some (mu, rest)) :
    u = mu ++ rest ∧ MiseDecomp mu := by
  simp only [miseShape] at h
  split at h
  · rename_i u1
    split at h
    · cases h
    · rename_i h1ne
      split at h
      · rename_i u2 hdw1
        split at h
        · cases h
        · rename_i h2ne
          split at h
          · rename_i u3 hdw2
            split at h
            · rename_i rest' hdw3
              injection h with hpair
              injection hpair with hmu hrest
              subst hrest
              subst hmu
              constructor
              · calc '"' :: u1
                    = '"' :: (u1.takeWhile isDD ++ u1.dropWhile isDD) := by
                      rw [List.takeWhile_append_dropWhile]
                  _ = '"' :: (u1.takeWhile isDD ++ ('"' :: ' ' :: '"' :: u2)) := by
                      rw [hdw1]
                  _ = '"' :: (u1.takeWhile isDD ++ ('"' :: ' ' :: '"' ::
                        (u2.takeWhile isDD ++ u2.dropWhile isDD))) := by
                      rw [List.takeWhile_append_dropWhile]
                  _ = '"' :: (u1.takeWhile isDD ++ ('"' :: ' ' :: '"' ::
                        (u2.takeWhile isDD ++ ('"' :: u3)))) := by rw [hdw2]
                  _ = '"' :: (u1.takeWhile isDD ++ ('"' :: ' ' :: '"' ::
                        (u2.takeWhile isDD ++ ('"' ::
                          (u3.takeWhile isPySpace ++ u3.dropWhile isPySpace))))) := by
                      rw [List.takeWhile_append_dropWhile]
                  _ = '"' :: (u1.takeWhile isDD ++ ('"' :: ' ' :: '"' ::
                        (u2.takeWhile isDD ++ ('"' ::
                          (u3.takeWhile isPySpace ++ ')' :: rest'))))) := by rw [hdw3]
                  _ = ('"' :: u1.takeWhile isDD ++ '"' :: ' ' :: '"' ::
                        u2.takeWhile isDD ++ '"' :: u3.takeWhile isPySpace ++ [')']) ++
                        rest' := by simp
              · refine ⟨u1.takeWhile isDD, u2.takeWhile isDD, u3.takeWhile isPySpace,
                  [')'], h1ne, h2ne, ?_, ?_, ?_, rfl, Or.inl rfl⟩
                · exact fun c hc => mem_takeWhile _ u1 c hc
                · exact fun c hc => mem_takeWhile _ u2 c hc
                · exact fun c hc => mem_takeWhile _ u3 c hc
            · rename_i u4 hdw3
              split at h
              · cases h
              · rename_i h3ne
                split at h
                · rename_i rest' hdw4
                  injection h with hpair
                  injection hpair with hmu hrest
                  subst hrest
                  subst hmu
                  constructor
                  · calc '"' :: u1
                        = '"' :: (u1.takeWhile isDD ++ u1.dropWhile isDD) := by
                          rw [List.takeWhile_append_dropWhile]
                      _ = '"' :: (u1.takeWhile isDD ++ ('"' :: ' ' :: '"' :: u2)) := by
                          rw [hdw1]
                      _ = '"' :: (u1.takeWhile isDD ++ ('"' :: ' ' :: '"' ::
                            (u2.takeWhile isDD ++ u2.dropWhile isDD))) := by
                          rw [List.takeWhile_append_dropWhile]
                      _ = '"' :: (u1.takeWhile isDD ++ ('"' :: ' ' :: '"' ::
                            (u2.takeWhile isDD ++ ('"' :: u3)))) := by rw [hdw2]
                      _ = '"' :: (u1.takeWhile isDD ++ ('"' :: ' ' :: '"' ::
                            (u2.takeWhile isDD ++ ('"' ::
                              (u3.takeWhile isPySpace ++ u3.dropWhile isPySpace))))) := by
                          rw [List.takeWhile_append_dropWhile]
                      _ = '"' :: (u1.takeWhile isDD ++ ('"' :: ' ' :: '"' ::
                            (u2.takeWhile isDD ++ ('"' ::
                              (u3.takeWhile isPySpace ++ '"' :: u4))))) := by rw [hdw3]
                      _ = '"' :: (u1.takeWhile isDD ++ ('"' :: ' ' :: '"' ::
                            (u2.takeWhile isDD ++ ('"' ::
                              (u3.takeWhile isPySpace ++ '"' ::
                                (u4.takeWhile isDD ++ u4.dropWhile isDD)))))) := by
                          rw [List.takeWhile_append_dropWhile]
                      _ = '"' :: (u1.takeWhile isDD ++ ('"' :: ' ' :: '"' ::
                            (u2.takeWhile isDD ++ ('"' ::
                              (u3.takeWhile isPySpace ++ '"' ::
                                (u4.takeWhile isDD ++ '"' :: ')' :: rest')))))) := by
                          rw [hdw4]
                      _ = ('"' :: u1.takeWhile isDD ++ '"' :: ' ' :: '"' ::
                            u2.takeWhile isDD ++ '"' :: u3.takeWhile isPySpace ++
                            '"' :: u4.takeWhile isDD ++ ['"', ')']) ++ rest' := by simp
                  · refine ⟨u1.takeWhile isDD, u2.takeWhile isDD, u3.takeWhile isPySpace,
                      '"' :: u4.takeWhile isDD ++ ['"', ')'], h1ne, h2ne, ?_, ?_, ?_, ?_,
                      Or.inr ⟨u4.takeWhile isDD, h3ne, ?_, rfl⟩⟩
                    · exact fun c hc => mem_takeWhile _ u1 c hc
                    · exact fun c hc => mem_takeWhile _ u2 c hc
                    · exact fun c hc => mem_takeWhile _ u3 c hc
                    · simp
                    · exact fun c hc => mem_takeWhile _ u4 c hc
                · cases h
            · cases h
          · cases h
      · cases h
  · cases h

theorem miseShape_of_decomp {mu : Str} (hd : MiseDecomp mu) :
    ∀ v, miseShape (mu ++ v) = some (mu, v) := by
  obtain ⟨d1, d2, ws, tail3, h1ne, h2ne, ha1, ha2, haw, hmu, htail⟩ := hd
  have hquote : ∀ (z : Str) (c : Char), ('"' :: z).head? = some c → isDD c = false := by
    intro z c hc
    injection hc with h'
    rw [← h']
    decide
  have hquoteS : ∀ (z : Str) (c : Char), ('"' :: z).head? = some c →
      isPySpace c = false := by
    intro z c hc
    injection hc with h'
    rw [← h']
    decide
  have hparenS : ∀ (z : Str) (c : Char), (')' :: z).head? = some c →
      isPySpace c = false := by
    intro z c hc
    injection hc with h'
    rw [← h']
    decide
  intro v
  subst hmu
  rcases htail with h3 | ⟨d3, h3ne, ha3, h3eq⟩
  · subst h3
    have hs : ('"' :: d1 ++ '"' :: ' ' :: '"' :: d2 ++ '"' :: ws ++ [')']) ++ v =
        '"' :: (d1 ++ '"' :: ' ' :: '"' :: (d2 ++ '"' :: (ws ++ ')' :: v))) := by simp
    rw [hs]
    have e1 := takeWhile_append_of isDD d1
      ('"' :: ' ' :: '"' :: (d2 ++ '"' :: (ws ++ ')' :: v))) ha1 (hquote _)
    have e2 := dropWhile_append_of isDD d1
      ('"' :: ' ' :: '"' :: (d2 ++ '"' :: (ws ++ ')' :: v))) ha1 (hquote _)
    have e3 := takeWhile_append_of isDD d2 ('"' :: (ws ++ ')' :: v)) ha2 (hquote _)
    have e4 := dropWhile_append_of isDD d2 ('"' :: (ws ++ ')' :: v)) ha2 (hquote _)
    have e5 := takeWhile_append_of isPySpace ws (')' :: v) haw (hparenS _)
    have e6 := dropWhile_append_of isPySpace ws (')' :: v) haw (hparenS _)
    simp only [miseShape, e1, e2, if_neg h1ne, e3, e4, if_neg h2ne, e5, e6]
  · subst h3eq
    have hs : ('"' :: d1 ++ '"' :: ' ' :: '"' :: d2 ++ '"' :: ws ++
          ('"' :: d3 ++ ['"', ')'])) ++ v =
        '"' :: (d1 ++ '"' :: ' ' :: '"' :: (d2 ++ '"' ::
          (ws ++ '"' :: (d3 ++ '"' :: ')' :: v)))) := by simp
    rw [hs]
    have e1 := takeWhile_append_of isDD d1
      ('"' :: ' ' :: '"' :: (d2 ++ '"' :: (ws ++ '"' :: (d3 ++ '"' :: ')' :: v))))
      ha1 (hquote _)
    have e2 := dropWhile_append_of isDD d1
      ('"' :: ' ' :: '"' :: (d2 ++ '"' :: (ws ++ '"' :: (d3 ++ '"' :: ')' :: v))))
      ha1 (hquote _)
    have e3 := takeWhile_append_of isDD d2
      ('"' :: (ws ++ '"' :: (d3 ++ '"' :: ')' :: v))) ha2 (hquote _)
    have e4 := dropWhile_append_of isDD d2
      ('"' :: (ws ++ '"' :: (d3 ++ '"' :: ')' :: v))) ha2 (hquote _)
    have e5 := takeWhile_append_of isPySpace ws ('"' :: (d3 ++ '"' :: ')' :: v))
      haw (hquoteS _)
    have e6 := dropWhile_append_of isPySpace ws ('"' :: (d3 ++ '"' :: ')' :: v))
      haw (hquoteS _)
    have e7 := takeWhile_append_of isDD d3 ('"' :: ')' :: v) ha3 (hquote _)
    have e8 := dropWhile_append_of isDD d3 ('"' :: ')' :: v) ha3 (hquote _)
    simp only [miseShape, e1, e2, if_neg h1ne, e3, e4, if_neg h2ne, e5, e6,
      if_neg h3ne, e7, e8]
    simp

theorem MiseDecomp_chars {mu : Str} (h : MiseDecomp mu) :
    ∀ c ∈ mu, miseChar c = true := by
  obtain ⟨d1, d2, ws, tail3, _, _, ha1, ha2, haw, hmu, htail⟩ := h
  intro c hc
  subst hmu
  rcases List.mem_append.1 hc with hc1 | hc1
  · rcases List.mem_append.1 hc1 with hc2 | hc2
    · rcases List.mem_append.1 hc2 with hc3 | hc3
      · rcases List.mem_cons.1 hc3 with h0 | h0
        · subst h0
          decide
        · simp [miseChar, ha1 c h0]
      · rcases List.mem_cons.1 hc3 with h0 | h0
        · subst h0
          decide
        · rcases List.mem_cons.1 h0 with h0' | h0'
          · subst h0'
            decide
          · rcases List.mem_cons.1 h0' with h0'' | h0''
            · subst h0''
              decide
            · simp [miseChar, ha2 c h0'']
    · rcases List.mem_cons.1 hc2 with h0 | h0
      · subst h0
        decide
      · simp [miseChar, haw c h0]
  · rcases htail with h3 | ⟨d3, _, ha3, h3eq⟩
    · subst h3
      rcases List.mem_cons.1 hc1 with h0 | h0
      · subst h0
        decide
      · cases h0
    · subst h3eq
      rcases List.mem_cons.1 hc1 with h0 | h0
      · subst h0
        decide
      · rcases List.mem_append.1 h0 with h1 | h1
        · simp [miseChar, ha3 c h1]
        · rcases List.mem_cons.1 h1 with h2 | h2
          · subst h2
            decide
          · rcases List.mem_cons.1 h2 with h3 | h3
            · subst h3
              decide
            · cases h3

theorem MiseDecomp_ne_nil {mu : Str} (h : MiseDecomp mu) : mu ≠ [] := by
  obtain ⟨d1, d2, ws, tail3, _, _, _, _, _, hmu, _⟩ := h
  subst hmu
  intro hcon
  have h1 := (List.append_eq_nil.1 hcon).1
  have h2 := (List.append_eq_nil.1 h1).1
  have h3 := (List.append_eq_nil.1 h2).1
  cases h3

theorem matchMise_some_inv {n o s m r t : Str} (h : matchMise n o s = some (m, r, t)) :
    ∃ mu, m = litMise ++ mu ∧ r = miseRepl n o ∧ s = m ++ t ∧ MiseDecomp mu := by
  unfold matchMise at h
  rcases hstrip : stripPrefixL litMise s with _ | u
  · rw [hstrip] at h
    cases h
  · simp only [hstrip] at h
    rcases hms : miseShape u with _ | ⟨mu, rest⟩
    · rw [hms] at h
      cases h
    · simp only [hms] at h
      injection h with h1
      injection h1 with ha hbc
      injection hbc with hb hc
      obtain ⟨hu, hdec⟩ := miseShape_some_decomp hms
      subst hc
      subst ha
      subst hb
      refine ⟨mu, rfl, rfl, ?_, hdec⟩
      rw [stripPrefixL_some litMise s u hstrip, hu]
      simp

theorem matchMise_wf (n o : Str) : WF (matchMise n o) := by
  intro s m r t h
  obtain ⟨mu, hm, _, hs, _⟩ := matchMise_some_inv h
  refine ⟨hs, ?_⟩
  rw [hm]
  intro hcon
  exact (by decide : litMise ≠ []) (List.append_eq_nil.1 hcon).1

theorem matchMise_none_of_not_pre {n o s : Str} (h : ¬IsPre litMise s) :
    matchMise n o s = none := by
  unfold matchMise
  rw [stripPrefixL_none litMise s h]

theorem miseRepl_decomp (n o : Str) :
    miseRepl n o = litMise ++ ('"' :: o ++ '"' :: ' ' :: '"' :: n ++ ['"', ')']) := by
  unfold miseRepl
  simp

theorem miseRepl_ne (n o : Str) : miseRepl n o ≠ [] := by
  unfold miseRepl
  intro hcon
  exact (by decide : (['"', ')'] : Str) ≠ []) (List.append_eq_nil.1 hcon).2

theorem miseRepl_head (n o : Str) : (miseRepl n o).head? = some 'V' := by
  unfold miseRepl
  rw [(by decide : litMise = 'V' :: "ERSIONS=(".toList)]
  rfl

theorem matchMise_rematch {n o : Str} (hn : DigitDot n) (ho : DigitDot o) :
    ∀ u, matchMise n o (miseRepl n o ++ u) =
      some (miseRepl n o, miseRepl n o, u) := by
  intro u
  have hdec : MiseDecomp ('"' :: o ++ '"' :: ' ' :: '"' :: n ++ ['"', ')']) := by
    refine ⟨o, n, [], [')'], ho.1, hn.1, ho.2, hn.2, ?_, ?_, Or.inl rfl⟩
    · intro c hc
      cases hc
    · simp
  have hsplit : miseRepl n o ++ u =
      litMise ++ (('"' :: o ++ '"' :: ' ' :: '"' :: n ++ ['"', ')']) ++ u) := by
    rw [miseRepl_decomp]
    simp
  rw [hsplit, matchMise_append, miseShape_of_decomp hdec]
  show some (litMise ++ ('"' :: o ++ '"' :: ' ' :: '"' :: n ++ ['"', ')']),
      miseRepl n o, u) = some (miseRepl n o, miseRepl n o, u)
  rw [← miseRepl_decomp]

theorem matchMise_h4 {n o : Str} :
    ∀ c cs, matchMise n o (c :: cs) = none →
      matchMise n o (c :: scanSub (matchMise n o) cs) = none := by
  intro c cs h
  have hwf := matchMise_wf n o
  by_cases hpre : IsPre litMise (c :: cs)
  · obtain ⟨u, hu⟩ := hpre
    obtain ⟨lt, hlb, hcs⟩ := cons_of_pre litMise_ne hu
    have hlen1 : litMise.length = lt.length + 1 := by
      rw [hlb]
      simp
    -- the shape failed on `u`, else the matcher would have fired
    have hsh : miseShape u = none := by
      cases hp : miseShape u with
      | none => rfl
      | some v =>
        obtain ⟨mu, rest⟩ := v
        exfalso
        have hsome := matchMise_append n o u
        rw [hu, h] at hsome
        simp only [hp] at hsome
        cases hsome
    -- the scan cannot fire inside the literal span
    have hskip : scanSub (matchMise n o) cs = lt ++ scanSub (matchMise n o) u := by
      rw [hcs]
      apply scan_append_skip
      intro a1 c' a2 hsplit
      apply matchMise_none_of_not_pre
      intro hcon
      have hdrop : litMise.drop (a1.length + 1) = c' :: a2 := by
        rw [hlb, List.drop_succ_cons, hsplit, List.drop_left]
      have hlsplit : lt.length = a1.length + (a2.length + 1) := by
        rw [hsplit]
        simp
      have hk2 : a1.length + 1 < litMise.length := by omega
      have hlen : (c' :: a2).length < litMise.length := by
        simp only [List.length_cons]
        omega
      have hnested : IsPre (c' :: a2) litMise :=
        IsPre_nested (IsPre_self_append (c' :: a2) u) hcon (le_of_lt hlen)
      rw [← hdrop] at hnested
      exact litMise_nov (a1.length + 1) (Nat.succ_pos _) hk2 hnested
    -- the shape still fails on the scanned tail: a fresh match could sit
    -- neither inside the untouched prefix nor across a replacement
    have hsh' : miseShape (scanSub (matchMise n o) u) = none := by
      rcases scan_decomp hwf u with ⟨hid, _⟩ | ⟨a, m, r, t, he, hf, _, hscan⟩
      · rw [hid]
        exact hsh
      · rw [hscan]
        cases hp : miseShape (a ++ r ++ scanSub (matchMise n o) t) with
        | none => rfl
        | some v =>
          obtain ⟨mu, rest⟩ := v
          exfalso
          obtain ⟨heq, hdec⟩ := miseShape_some_decomp hp
          obtain ⟨mu0, _, hr, _, _⟩ := matchMise_some_inv hf
          by_cases hle : mu.length ≤ a.length
          · have hpmu : IsPre mu (a ++ r ++ scanSub (matchMise n o) t) := ⟨rest, heq.symm⟩
            have hpa : IsPre a (a ++ r ++ scanSub (matchMise n o) t) :=
              ⟨r ++ scanSub (matchMise n o) t, by simp⟩
            obtain ⟨a2, ha2⟩ := IsPre_nested hpmu hpa hle
            have hu' : u = mu ++ (a2 ++ (m ++ t)) := by
              rw [he, ← ha2]
              simp
            rw [hu', miseShape_of_decomp hdec] at hsh
            cases hsh
          · push_neg at hle
            have hpa : IsPre a (mu ++ rest) :=
              ⟨r ++ scanSub (matchMise n o) t, by rw [← List.append_assoc]; exact heq⟩
            obtain ⟨q, hq⟩ := IsPre_nested hpa (IsPre_self_append mu rest) (le_of_lt hle)
            have hqne : q ≠ [] := by
              intro h0
              rw [h0, List.append_nil] at hq
              rw [← hq] at hle
              omega
            have h5 : a ++ (r ++ scanSub (matchMise n o) t) = a ++ (q ++ rest) := by
              rw [← List.append_assoc, ← List.append_assoc, hq]
              exact heq
            have hcancel : r ++ scanSub (matchMise n o) t = q ++ rest :=
              List.append_cancel_left h5
            cases q with
            | nil => exact hqne rfl
            | cons qh q' =>
              have hhead : (r ++ scanSub (matchMise n o) t).head? = some qh := by
                rw [hcancel]
                rfl
              have hrne : r ≠ [] := by
                rw [hr]
                exact miseRepl_ne n o
              rw [head?_append_left _ hrne, hr, miseRepl_head] at hhead
              injection hhead with hv
              have hmem : qh ∈ mu := by
                rw [← hq]
                exact List.mem_append_right a (List.mem_cons_self qh q')
              have hch := MiseDecomp_chars hdec qh hmem
              rw [← hv] at hch
              exact absurd hch (by decide)
    have hfinal : c :: scanSub (matchMise n o) cs =
        litMise ++ scanSub (matchMise n o) u := by
      rw [hskip, hlb]
      rfl
    rw [hfinal, matchMise_append]
    simp only [hsh']
  · have h4a := not_pre_preserved hwf litMise litMise_ne
      (fun s m r t hf => by
        obtain ⟨mu, _, hr, _, _⟩ := matchMise_some_inv hf
        rw [hr, miseRepl_decomp, List.length_append]
        omega)
      (fun s m r t hf k hk1 hk2 hcon => by
        obtain ⟨mu, _, hr, _, _⟩ := matchMise_some_inv hf
        subst hr
        rw [miseRepl_decomp] at hcon
        have hnest : IsPre (litMise.drop k) litMise :=
          IsPre_nested hcon (IsPre_self_append litMise _)
            (by have := List.length_drop k litMise; omega)
        exact litMise_nov k hk1 hk2 hnest)
      c cs hpre
    exact matchMise_none_of_not_pre h4a

/-- Idempotence of the mise.toml substitution pass. -/
theorem matchMise_idem {n o : Str} (hn : DigitDot n) (ho : DigitDot o) :
    ∀ s, scanSub (matchMise n o) (scanSub (matchMise n o) s) =
      scanSub (matchMise n o) s :=
  scan_idem (matchMise_wf n o) (fun _ => True)
    (fun _ _ _ _ _ => trivial)
    (fun s m r t h u _ => by
      obtain ⟨mu, _, hr, _, _⟩ := matchMise_some_inv h
      subst hr
      exact matchMise_rematch hn ho u)
    (fun s m r t h => by
      obtain ⟨mu, _, hr, _, _⟩ := matchMise_some_inv h
      rw [hr]
      exact miseRepl_ne n o)
    (fun u _ => trivial)
    matchMise_h4

/-! ## `matchCi1` obligations and the composite ci.yml pass -/

theorem IsPre_append_cases {p a x : Str} (h : IsPre p (a ++ x)) :
    IsPre p a ∨ IsPre a p := by
  by_cases hl : p.length ≤ a.length
  · exact Or.inl (IsPre_of_append_le h hl)
  · exact Or.inr (IsPre_nested (IsPre_self_append a x) h (by omega))

theorem drop_append_le : ∀ (i : Nat) (a b : Str), i ≤ a.length →
    (a ++ b).drop i = a.drop i ++ b := by
  intro i a
  induction a generalizing i with
  | nil =>
    intro b hi
    have : i = 0 := Nat.le_zero.1 hi
    subst this
    rfl
  | cons x a' ih =>
    intro b hi
    cases i with
    | zero => rfl
    | succ j =>
      rw [List.cons_append, List.drop_succ_cons, List.drop_succ_cons]
      exact ih j b (by simpa using hi)

theorem drop_append_ge : ∀ (i : Nat) (a b : Str), a.length ≤ i →
    (a ++ b).drop i = b.drop (i - a.length) := by
  intro i a
  induction a generalizing i with
  | nil =>
    intro b _
    rfl
  | cons x a' ih =>
    intro b hi
    cases i with
    | zero => simp at hi
    | succ j =>
      rw [List.cons_append, List.drop_succ_cons, ih j b (by simpa using hi)]
      have : j - a'.length = j + 1 - (x :: a').length := by
        simp only [List.length_cons]
        omega
      rw [this]

theorem DigitDot_of_Triple {o : Str} (h : Triple o) : DigitDot o := by
  obtain ⟨he, hdec⟩ := parse3_some_decomp h
  exact ⟨P3Decomp_ne_nil hdec, P3Decomp_chars hdec⟩

theorem ci1Shape_some_inv {u ws body rest : Str}
    (h : ci1Shape u = some (ws, body, rest)) :
    u = ws ++ '[' :: (body ++ ']' :: rest) ∧ (∀ c ∈ ws, isPySpace c = true) ∧
      body ≠ [] ∧ (∀ c ∈ body, c ≠ ']') := by
  simp only [ci1Shape] at h
  split at h
  · rename_i w hw
    split at h
    · cases h
    · rename_i hbne
      split at h
      · rename_i rest' hrest
        injection h with hpair
        injection hpair with h1 h23
        injection h23 with h2 h3
        subst h1
        subst h2
        subst h3
        refine ⟨?_, fun c hc => mem_takeWhile _ u c hc, hbne,
          fun c hc => of_decide_eq_true (mem_takeWhile _ w c hc)⟩
        calc u = u.takeWhile isPySpace ++ u.dropWhile isPySpace :=
              (List.takeWhile_append_dropWhile (p := isPySpace) (l := u)).symm
          _ = u.takeWhile isPySpace ++ ('[' :: w) := by rw [hw]
          _ = u.takeWhile isPySpace ++ ('[' ::
                (w.takeWhile (fun c => decide (c ≠ ']')) ++
                  w.dropWhile (fun c => decide (c ≠ ']')))) := by
              rw [List.takeWhile_append_dropWhile]
          _ = u.takeWhile isPySpace ++ ('[' ::
                (w.takeWhile (fun c => decide (c ≠ ']')) ++ ']' :: rest')) := by
              rw [hrest]
      · cases h
  · cases h

theorem ci1Shape_of {ws body rest : Str} (hws : ∀ c ∈ ws, isPySpace c = true)
    (hb : body ≠ []) (hbm : ∀ c ∈ body, c ≠ ']') :
    ci1Shape (ws ++ '[' :: (body ++ ']' :: rest)) = some (ws, body, rest) := by
  have hbr : ∀ (z : Str) (c : Char), ('[' :: z).head? = some c → isPySpace c = false := by
    intro z c hc
    injection hc with h'
    rw [← h']
    decide
  have hp1 : ∀ c ∈ body, (fun c => decide (c ≠ ']')) c = true := by
    intro c hc
    simp [hbm c hc]
  have hrb : ∀ (z : Str) (c : Char), (']' :: z).head? = some c →
      (fun c => decide (c ≠ ']')) c = false := by
    intro z c hc
    injection hc with h'
    simp [← h']
  have e1 := takeWhile_append_of isPySpace ws ('[' :: (body ++ ']' :: rest)) hws (hbr _)
  have e2 := dropWhile_append_of isPySpace ws ('[' :: (body ++ ']' :: rest)) hws (hbr _)
  have e3 := takeWhile_append_of _ body (']' :: rest) hp1 (hrb _)
  have e4 := dropWhile_append_of _ body (']' :: rest) hp1 (hrb _)
  simp only [ci1Shape, e1, e2, e3, e4, if_neg hb]

theorem matchCi1_append (n o w : Str) :
    matchCi1 n o (litPgv ++ w) =
      match ci1Shape w with
      | none => none
      | some (ws, body, rest) =>
          some (litPgv ++ ws ++ '[' :: body ++ [']'],
                litPgv ++ ws ++ '[' :: vstr n o ++ [']'], rest) := by
  unfold matchCi1
  rw [stripPrefixL_of_append]

theorem matchCi1_some_inv {n o s m r t : Str} (h : matchCi1 n o s = some (m, r, t)) :
    ∃ ws body, m = litPgv ++ ws ++ '[' :: body ++ [']'] ∧
      r = litPgv ++ ws ++ '[' :: vstr n o ++ [']'] ∧ s = m ++ t ∧
      (∀ c ∈ ws, isPySpace c = true) ∧ body ≠ [] ∧ (∀ c ∈ body, c ≠ ']') := by
  unfold matchCi1 at h
  rcases hstrip : stripPrefixL litPgv s with _ | u
  · rw [hstrip] at h
    cases h
  · simp only [hstrip] at h
    rcases hcs : ci1Shape u with _ | ⟨ws, body, rest⟩
    · rw [hcs] at h
      cases h
    · simp only [hcs] at h
      injection h with h1
      injection h1 with ha hbc
      injection hbc with hb hc
      obtain ⟨hu, hws, hbne, hbm⟩ := ci1Shape_some_inv hcs
      subst hc
      subst ha
      subst hb
      refine ⟨ws, body, rfl, rfl, ?_, hws, hbne, hbm⟩
      rw [stripPrefixL_some litPgv s u hstrip, hu]
      simp

theorem matchCi1_wf (n o : Str) : WF (matchCi1 n o) := by
  intro s m r t h
  obtain ⟨ws, body, hm, _, hs, _, _, _⟩ := matchCi1_some_inv h
  refine ⟨hs, ?_⟩
  rw [hm]
  intro hcon
  exact (by decide : (([']'] : Str) ≠ [])) (List.append_eq_nil.1 hcon).2

theorem matchCi1_none_of_not_pre {n o s : Str} (h : ¬IsPre litPgv s) :
    matchCi1 n o s = none := by
  unfold matchCi1
  rw [stripPrefixL_none litPgv s h]

theorem isDD_ne {c x : Char} (h : isDD c = true) (hx : isDD x = false) : c ≠ x := by
  intro he
  rw [he, hx] at h
  cases h

theorem vstr_ne {n o : Str} : vstr n o ≠ [] := by
  unfold vstr
  intro hcon
  exact (by decide : (['"'] : Str) ≠ []) (List.append_eq_nil.1 hcon).2

theorem vstr_chars {n o : Str} (hn : DigitDot n) (ho : DigitDot o) :
    ∀ c ∈ vstr n o, isDD c = true ∨ c = '"' ∨ c = ',' ∨ c = ' ' := by
  intro c hc
  unfold vstr at hc
  rcases List.mem_append.1 hc with h1 | h1
  · rcases List.mem_append.1 h1 with h2 | h2
    · rcases List.mem_cons.1 h2 with h3 | h3
      · exact Or.inr (Or.inl h3)
      · exact Or.inl (hn.2 c h3)
    · rcases List.mem_cons.1 h2 with h3 | h3
      · exact Or.inr (Or.inl h3)
      · rcases List.mem_cons.1 h3 with h4 | h4
        · exact Or.inr (Or.inr (Or.inl h4))
        · rcases List.mem_cons.1 h4 with h5 | h5
          · exact Or.inr (Or.inr (Or.inr h5))
          · rcases List.mem_cons.1 h5 with h6 | h6
            · exact Or.inr (Or.inl h6)
            · exact Or.inl (ho.2 c h6)
  · rcases List.mem_cons.1 h1 with h2 | h2
    · exact Or.inr (Or.inl h2)
    · cases h2

theorem r1_chars {n o ws : Str} (hn : DigitDot n) (ho : DigitDot o)
    (hws : ∀ c ∈ ws, isPySpace c = true) :
    ∀ c ∈ litPgv ++ ws ++ '[' :: vstr n o ++ [']'],
      c ∈ litPgv ∨ isPySpace c = true ∨ isDD c = true ∨
        c = '[' ∨ c = ']' ∨ c = '"' ∨ c = ',' ∨ c = ' ' := by
  intro c hc
  rcases List.mem_append.1 hc with h1 | h1
  · rcases List.mem_append.1 h1 with h2 | h2
    · rcases List.mem_append.1 h2 with h3 | h3
      · exact Or.inl h3
      · exact Or.inr (Or.inl (hws c h3))
    · rcases List.mem_cons.1 h2 with h3 | h3
      · exact Or.inr (Or.inr (Or.inr (Or.inl h3)))
      · rcases vstr_chars hn ho c h3 with h4 | h4 | h4 | h4
        · exact Or.inr (Or.inr (Or.inl h4))
        · exact Or.inr (Or.inr (Or.inr (Or.inr (Or.inr (Or.inl h4)))))
        · exact Or.inr (Or.inr (Or.inr (Or.inr (Or.inr (Or.inr (Or.inl h4))))))
        · exact Or.inr (Or.inr (Or.inr (Or.inr (Or.inr (Or.inr (Or.inr h4))))))
  · rcases List.mem_cons.1 h1 with h2 | h2
    · exact Or.inr (Or.inr (Or.inr (Or.inr (Or.inl h2))))
    · cases h2

theorem b_not_in_r1 {n o ws : Str} (hn : DigitDot n) (ho : DigitDot o)
    (hws : ∀ c ∈ ws, isPySpace c = true) :
    'b' ∉ litPgv ++ ws ++ '[' :: vstr n o ++ [']'] := by
  intro hc
  rcases r1_chars hn ho hws 'b' hc with h | h | h | h | h | h | h | h
  · exact absurd h (by decide)
  · exact absurd h (by decide)
  · exact absurd h (by decide)
  · exact absurd h (by decide)
  · exact absurd h (by decide)
  · exact absurd h (by decide)
  · exact absurd h (by decide)
  · exact absurd h (by decide)

theorem at_not_in_r1 {n o ws : Str} (hn : DigitDot n) (ho : DigitDot o)
    (hws : ∀ c ∈ ws, isPySpace c = true) :
    '@' ∉ litPgv ++ ws ++ '[' :: vstr n o ++ [']'] := by
  intro hc
  rcases r1_chars hn ho hws '@' hc with h | h | h | h | h | h | h | h
  · exact absurd h (by decide)
  · exact absurd h (by decide)
  · exact absurd h (by decide)
  · exact absurd h (by decide)
  · exact absurd h (by decide)
  · exact absurd h (by decide)
  · exact absurd h (by decide)
  · exact absurd h (by decide)

theorem matchCi1_rematch {n o ws : Str} (hn : DigitDot n) (ho : DigitDot o)
    (hws : ∀ c ∈ ws, isPySpace c = true) :
    ∀ u, matchCi1 n o ((litPgv ++ ws ++ '[' :: vstr n o ++ [']']) ++ u) =
      some (litPgv ++ ws ++ '[' :: vstr n o ++ [']'],
            litPgv ++ ws ++ '[' :: vstr n o ++ [']'], u) := by
  intro u
  have hvm : ∀ c ∈ vstr n o, c ≠ ']' := by
    intro c hc
    rcases vstr_chars hn ho c hc with h | h | h | h
    · exact isDD_ne h (by decide)
    · rw [h]
      decide
    · rw [h]
      decide
    · rw [h]
      decide
  have hassoc : (litPgv ++ ws ++ '[' :: vstr n o ++ [']']) ++ u =
      litPgv ++ (ws ++ '[' :: (vstr n o ++ ']' :: u)) := by simp
  rw [hassoc, matchCi1_append, ci1Shape_of hws vstr_ne hvm]

/-- `matchCi1` cannot fire at any offset inside a `litPgAt ++ digits` span. -/
theorem no_ci1_in_pgAt {n o x : Str} (hx : ∀ c ∈ x, isDD c = true) :
    ∀ a1 c' a2, litPgAt ++ x = a1 ++ c' :: a2 →
      ∀ (w : Str), matchCi1 n o (c' :: (a2 ++ w)) = none := by
  intro a1 c' a2 hsplit w
  apply matchCi1_none_of_not_pre
  intro hcon
  have hcon2 : IsPre litPgv ((c' :: a2) ++ w) := by
    rw [List.cons_append]
    exact hcon
  rcases IsPre_append_cases hcon2 with hA | hB
  · have h1 : '_' ∈ (c' :: a2 : Str) := mem_of_IsPre hA (by decide : '_' ∈ litPgv)
    have h2 : '_' ∈ litPgAt ++ x := by
      rw [hsplit]
      exact List.mem_append_right a1 h1
    rcases List.mem_append.1 h2 with h3 | h3
    · exact absurd h3 (by decide)
    · exact absurd (hx _ h3) (by decide)
  · have hda : (c' :: a2 : Str) = (litPgAt ++ x).drop a1.length := by
      have h0 : (a1 ++ c' :: a2 : Str).drop a1.length = c' :: a2 := List.drop_left a1 _
      rw [← hsplit] at h0
      exact h0.symm
    by_cases hi : a1.length < litPgAt.length
    · rw [drop_append_le _ _ _ (le_of_lt hi)] at hda
      have hpre2 : IsPre (litPgAt.drop a1.length) litPgv :=
        IsPre_trans (IsPre_self_append (litPgAt.drop a1.length) x) (hda ▸ hB)
      have hfact : ∀ i, i < litPgAt.length → isPreB (litPgAt.drop i) litPgv = false := by
        decide
      rw [← isPreB_iff] at hpre2
      rw [hfact a1.length hi] at hpre2
      cases hpre2
    · push_neg at hi
      rw [drop_append_ge _ _ _ hi] at hda
      have hc' : c' ∈ x := by
        apply List.mem_of_mem_drop (n := a1.length - litPgAt.length)
        rw [← hda]
        exact List.mem_cons_self _ _
      obtain ⟨t0, ht0⟩ := hB
      rw [List.cons_append, (by decide : litPgv = 'p' :: "g_version:".toList)] at ht0
      injection ht0 with h1 _
      rw [h1] at hc'
      exact absurd (hx _ hc') (by decide)

/-- `matchVer litPgAt` cannot fire at any offset inside a ci1 replacement. -/
theorem no_pgAt_in_ci1block {n o ws : Str} (hn : DigitDot n) (ho : DigitDot o)
    (hws : ∀ c ∈ ws, isPySpace c = true) :
    ∀ a1 c' a2, litPgv ++ ws ++ '[' :: vstr n o ++ [']'] = a1 ++ c' :: a2 →
      ∀ (w : Str), matchVer litPgAt o (c' :: (a2 ++ w)) = none := by
  intro a1 c' a2 hsplit w
  apply matchVer_none_of_not_pre
  intro hcon
  have hcon2 : IsPre litPgAt ((c' :: a2) ++ w) := by
    rw [List.cons_append]
    exact hcon
  rcases IsPre_append_cases hcon2 with hA | hB
  · have h1 : 'b' ∈ (c' :: a2 : Str) := mem_of_IsPre hA (by decide : 'b' ∈ litPgAt)
    have h2 : 'b' ∈ litPgv ++ ws ++ '[' :: vstr n o ++ [']'] := by
      rw [hsplit]
      exact List.mem_append_right a1 h1
    exact b_not_in_r1 hn ho hws h2
  · have hlen : a1.length ≤ ((litPgv ++ ws) ++ ('[' :: vstr n o)).length := by
      have hl := congrArg List.length hsplit
      simp only [List.length_append, List.length_cons, List.length_nil] at hl ⊢
      omega
    have hdrop : (c' :: a2 : Str) =
        ((litPgv ++ ws) ++ ('[' :: vstr n o)).drop a1.length ++ [']'] := by
      have h0 : (a1 ++ c' :: a2 : Str).drop a1.length = c' :: a2 := List.drop_left a1 _
      rw [← hsplit] at h0
      rw [← h0, drop_append_le _ _ _ hlen]
    have hrb : ']' ∈ (c' :: a2 : Str) := by
      rw [hdrop]
      exact List.mem_append_right _ (List.mem_cons_self _ _)
    exact absurd (mem_of_IsPre hB hrb) (by decide)

theorem dropWhile_head_of_ne {x : Char} {u : Str}
    (h : u.dropWhile (fun c => decide (c ≠ x)) ≠ []) :
    ∃ w, u.dropWhile (fun c => decide (c ≠ x)) = x :: w := by
  cases hd : u.dropWhile (fun c => decide (c ≠ x)) with
  | nil => exact absurd hd h
  | cons d w =>
    have hfalse := head?_dropWhile _ u d (by rw [hd]; rfl)
    have hdj : d = x := by
      by_contra hne
      simp [hne] at hfalse
    exact ⟨w, by rw [hdj]⟩

theorem ci1Shape_none_of_not_mem {v : Str} (h : ']' ∉ v) : ci1Shape v = none := by
  cases hc : ci1Shape v with
  | none => rfl
  | some w =>
    obtain ⟨ws, body, rest⟩ := w
    exfalso
    obtain ⟨hv, _, _, _⟩ := ci1Shape_some_inv hc
    apply h
    rw [hv]
    exact List.mem_append_right _ (List.mem_cons_of_mem _
      (List.mem_append_right _ (List.mem_cons_self _ _)))

theorem ci1Shape_none_cases {u : Str} (h : ci1Shape u = none) :
    ']' ∉ u ∨ (∃ d w, u.dropWhile isPySpace = d :: w ∧ d ≠ '[') ∨
      (∃ w', u.dropWhile isPySpace = '[' :: ']' :: w') := by
  by_contra hcon
  push_neg at hcon
  obtain ⟨hmem, h2, h3⟩ := hcon
  have hd1 : u.dropWhile isPySpace ≠ [] :=
    dropWhile_ne_nil_of_mem hmem (by decide)
  cases hdw : u.dropWhile isPySpace with
  | nil => exact hd1 hdw
  | cons d w =>
    have hd : d = '[' := h2 d w hdw
    subst hd
    have hus := (List.takeWhile_append_dropWhile (p := isPySpace) (l := u)).symm
    rw [hdw] at hus
    have hmw : ']' ∈ w := by
      rw [hus] at hmem
      rcases List.mem_append.1 hmem with h4 | h4
      · exact absurd (mem_takeWhile _ u _ h4) (by decide)
      · rcases List.mem_cons.1 h4 with h5 | h5
        · exact absurd h5 (by decide)
        · exact h5
    cases w with
    | nil => cases hmw
    | cons wh w2 =>
      have hwh : wh ≠ ']' := by
        intro h0
        exact h3 w2 (by rw [hdw, h0])
      have hbody : ((wh :: w2) : Str).takeWhile (fun c => decide (c ≠ ']')) ≠ [] := by
        rw [List.takeWhile_cons_of_pos (by simp [hwh])]
        intro h0
        cases h0
      have hd2 : ((wh :: w2) : Str).dropWhile (fun c => decide (c ≠ ']')) ≠ [] :=
        dropWhile_ne_nil_of_mem hmw (by decide)
      obtain ⟨rest, hrest⟩ := dropWhile_head_of_ne hd2
      simp only [ci1Shape, hdw, if_neg hbody, hrest] at h
      cases h

theorem ci1Shape_none_of_head {vs x : Str} {d : Char}
    (hvs : ∀ c ∈ vs, isPySpace c = true) (hd : isPySpace d = false) (hne : d ≠ '[') :
    ci1Shape (vs ++ d :: x) = none := by
  have e2 := dropWhile_append_of isPySpace vs (d :: x) hvs
    (fun c hc => by injection hc with h'; rw [← h']; exact hd)
  simp only [ci1Shape, e2]
  split
  · rename_i w hw
    exfalso
    injection hw with h1 _
    exact hne h1
  · rfl

theorem ci1Shape_none_of_bracket {vs x : Str} (hvs : ∀ c ∈ vs, isPySpace c = true) :
    ci1Shape (vs ++ '[' :: ']' :: x) = none := by
  have e2 := dropWhile_append_of isPySpace vs ('[' :: ']' :: x) hvs
    (fun c hc => by injection hc with h'; rw [← h']; decide)
  have ht : ((']' :: x) : Str).takeWhile (fun c => decide (c ≠ ']')) = [] :=
    List.takeWhile_cons_of_neg (by decide)
  simp [ci1Shape, e2, ht]

/-- A failed ci1 shape at the anchor stays failed after any substitution pass
whose matches and replacements start with `p` and cannot create a `]`. -/
theorem ci1_fail_transfer {M : Str → Option (Str × Str × Str)} (hwf : WF M)
    (hA : ∀ v, ']' ∉ v → ']' ∉ scanSub M v)
    (hph : ∀ s m r t, M s = some (m, r, t) →
      r.head? = some 'p' ∧ s.head? = some 'p')
    {u : Str} (h : ci1Shape u = none) : ci1Shape (scanSub M u) = none := by
  have hskipfn : ∀ (x : Str) a1 c a2, u.takeWhile isPySpace = a1 ++ c :: a2 →
      M (c :: (a2 ++ x)) = none := by
    intro x a1 c a2 hsplit
    cases hMf : M (c :: (a2 ++ x)) with
    | none => rfl
    | some v =>
      obtain ⟨m, r, t⟩ := v
      exfalso
      have hhd := (hph _ _ _ _ hMf).2
      injection hhd with hp'
      have hcmem : c ∈ u.takeWhile isPySpace := by
        rw [hsplit]
        exact List.mem_append_right a1 (List.mem_cons_self _ _)
      have hsp := mem_takeWhile _ u c hcmem
      rw [hp'] at hsp
      exact absurd hsp (by decide)
  rcases ci1Shape_none_cases h with h0 | ⟨d, w, hdw, hd⟩ | ⟨w', hdw⟩
  · exact ci1Shape_none_of_not_mem (hA u h0)
  · have hus := (List.takeWhile_append_dropWhile (p := isPySpace) (l := u)).symm
    rw [hdw] at hus
    have hd_ns : isPySpace d = false := head?_dropWhile isPySpace u d (by rw [hdw]; rfl)
    have hskip : scanSub M u = u.takeWhile isPySpace ++ scanSub M (d :: w) := by
      conv_lhs => rw [hus]
      exact scan_append_skip _ _ (hskipfn (d :: w))
    cases hMd : M (d :: w) with
    | none =>
      rw [hskip, scan_cons_none hMd]
      exact ci1Shape_none_of_head (fun c hc => mem_takeWhile _ u c hc) hd_ns hd
    | some v =>
      obtain ⟨m, r, t⟩ := v
      rw [hskip, scan_cons_some hwf hMd]
      obtain ⟨hr, _⟩ := hph _ _ _ _ hMd
      cases r with
      | nil => cases hr
      | cons rh r' =>
        injection hr with hrh
        subst hrh
        rw [List.cons_append]
        exact ci1Shape_none_of_head (fun c hc => mem_takeWhile _ u c hc)
          (by decide) (by decide)
  · have hus := (List.takeWhile_append_dropWhile (p := isPySpace) (l := u)).symm
    rw [hdw] at hus
    have hskip : scanSub M u = u.takeWhile isPySpace ++ scanSub M ('[' :: ']' :: w') := by
      conv_lhs => rw [hus]
      exact scan_append_skip _ _ (hskipfn ('[' :: ']' :: w'))
    have h1 : M ('[' :: ']' :: w') = none := by
      cases hMf : M ('[' :: ']' :: w') with
      | none => rfl
      | some v =>
        obtain ⟨m, r, t⟩ := v
        exfalso
        have hhd := (hph _ _ _ _ hMf).2
        injection hhd with hp'
        exact absurd hp' (by decide)
    have h2 : M (']' :: w') = none := by
      cases hMf : M (']' :: w') with
      | none => rfl
      | some v =>
        obtain ⟨m, r, t⟩ := v
        exfalso
        have hhd := (hph _ _ _ _ hMf).2
        injection hhd with hp'
        exact absurd hp' (by decide)
    rw [hskip, scan_cons_none h1, scan_cons_none h2]
    exact ci1Shape_none_of_bracket (fun c hc => mem_takeWhile _ u c hc)

theorem matchCi1_heads {n o s m r t : Str} (h : matchCi1 n o s = some (m, r, t)) :
    r.head? = some 'p' ∧ s.head? = some 'p' := by
  obtain ⟨ws, body, hm, hr, hs, _, _, _⟩ := matchCi1_some_inv h
  constructor
  · rw [hr, (by decide : litPgv = 'p' :: "g_version:".toList)]
    rfl
  · rw [hs, hm, (by decide : litPgv = 'p' :: "g_version:".toList)]
    rfl

theorem matchVer_heads {o s m r t : Str} (h : matchVer litPgAt o s = some (m, r, t)) :
    r.head? = some 'p' ∧ s.head? = some 'p' := by
  obtain ⟨m3, hm, hr, hs, _⟩ := matchVer_some_inv h
  constructor
  · rw [hr, (by decide : litPgAt = 'p' :: "ostgres-binary:postgres@".toList)]
    rfl
  · rw [hs, (by decide : litPgAt = 'p' :: "ostgres-binary:postgres@".toList)]
    rfl

theorem scan1_id_of_no_rbracket {n o v : Str} (h : ']' ∉ v) :
    scanSub (matchCi1 n o) v = v := by
  apply scan_eq_self_of_no_fire
  intro a b hab hb
  cases hM : matchCi1 n o b with
  | none => rfl
  | some w =>
    obtain ⟨m, r, t⟩ := w
    exfalso
    obtain ⟨ws, body, hm, _, hs, _, _, _⟩ := matchCi1_some_inv hM
    apply h
    rw [hab]
    apply List.mem_append_right
    rw [hs, hm]
    exact List.mem_append_left _ (List.mem_append_right _ (List.mem_cons_self _ _))

theorem matchCi1_h4_self {n o : Str} :
    ∀ c cs, matchCi1 n o (c :: cs) = none →
      matchCi1 n o (c :: scanSub (matchCi1 n o) cs) = none := by
  intro c cs h
  have hwf := matchCi1_wf n o
  by_cases hpre : IsPre litPgv (c :: cs)
  · obtain ⟨u, hu⟩ := hpre
    obtain ⟨lt, hlb, hcs⟩ := cons_of_pre litPgv_ne hu
    have hlen1 : litPgv.length = lt.length + 1 := by
      rw [hlb]
      simp
    have hsh : ci1Shape u = none := by
      cases hp : ci1Shape u with
      | none => rfl
      | some v =>
        obtain ⟨ws, body, rest⟩ := v
        exfalso
        have hsome := matchCi1_append n o u
        rw [hu, h] at hsome
        simp only [hp] at hsome
        cases hsome
    have hskip : scanSub (matchCi1 n o) cs = lt ++ scanSub (matchCi1 n o) u := by
      rw [hcs]
      apply scan_append_skip
      intro a1 c' a2 hsplit
      apply matchCi1_none_of_not_pre
      intro hcon
      have hdrop : litPgv.drop (a1.length + 1) = c' :: a2 := by
        rw [hlb, List.drop_succ_cons, hsplit, List.drop_left]
      have hlsplit : lt.length = a1.length + (a2.length + 1) := by
        rw [hsplit]
        simp
      have hk2 : a1.length + 1 < litPgv.length := by omega
      have hlen : (c' :: a2).length < litPgv.length := by
        simp only [List.length_cons]
        omega
      have hnested : IsPre (c' :: a2) litPgv :=
        IsPre_nested (IsPre_self_append (c' :: a2) u) hcon (le_of_lt hlen)
      rw [← hdrop] at hnested
      exact litPgv_nov (a1.length + 1) (Nat.succ_pos _) hk2 hnested
    have hsh' : ci1Shape (scanSub (matchCi1 n o) u) = none :=
      ci1_fail_transfer hwf
        (fun v hv => by rw [scan1_id_of_no_rbracket hv]; exact hv)
        (fun s m r t hf => matchCi1_heads hf) hsh
    have hfinal : c :: scanSub (matchCi1 n o) cs =
        litPgv ++ scanSub (matchCi1 n o) u := by
      rw [hskip, hlb]
      rfl
    rw [hfinal, matchCi1_append]
    simp only [hsh']
  · have h4a := not_pre_preserved hwf litPgv litPgv_ne
      (fun s m r t hf => by
        obtain ⟨ws, body, _, hr, _, _, _, _⟩ := matchCi1_some_inv hf
        rw [hr]
        simp only [List.length_append, List.length_cons, List.length_nil]
        omega)
      (fun s m r t hf k hk1 hk2 hcon => by
        obtain ⟨ws, body, _, hr, _, _, _, _⟩ := matchCi1_some_inv hf
        subst hr
        have hassoc : litPgv ++ ws ++ '[' :: vstr n o ++ [']'] =
            litPgv ++ (ws ++ ('[' :: vstr n o ++ [']'])) := by simp
        rw [hassoc] at hcon
        have hnest : IsPre (litPgv.drop k) litPgv :=
          IsPre_nested hcon (IsPre_self_append litPgv _)
            (by have := List.length_drop k litPgv; omega)
        exact litPgv_nov k hk1 hk2 hnest)
      c cs hpre
    exact matchCi1_none_of_not_pre h4a

theorem matchCi1_h4_cross {n o : Str} (ho : DigitDot o) :
    ∀ c cs, matchCi1 n o (c :: cs) = none →
      matchCi1 n o (c :: scanSub (matchVer litPgAt o) cs) = none := by
  intro c cs h
  have hwf2 := matchVer_wf litPgAt o litPgAt_ne
  have hA2 : ∀ v, ']' ∉ v → ']' ∉ scanSub (matchVer litPgAt o) v :=
    scan_not_mem hwf2 ']' (fun s m r t hf hc => by
      obtain ⟨m3, _, hr, _, _⟩ := matchVer_some_inv hf
      rw [hr] at hc
      rcases List.mem_append.1 hc with h1 | h1
      · exact absurd h1 (by decide)
      · exact absurd (ho.2 _ h1) (by decide))
  by_cases hpre : IsPre litPgv (c :: cs)
  · obtain ⟨u, hu⟩ := hpre
    obtain ⟨lt, hlb, hcs⟩ := cons_of_pre litPgv_ne hu
    have hsh : ci1Shape u = none := by
      cases hp : ci1Shape u with
      | none => rfl
      | some v =>
        obtain ⟨ws, body, rest⟩ := v
        exfalso
        have hsome := matchCi1_append n o u
        rw [hu, h] at hsome
        simp only [hp] at hsome
        cases hsome
    have hskip : scanSub (matchVer litPgAt o) cs =
        lt ++ scanSub (matchVer litPgAt o) u := by
      rw [hcs]
      apply scan_append_skip
      intro a1 c' a2 hsplit
      apply matchVer_none_of_not_pre
      intro hcon
      have hcon2 : IsPre litPgAt ((c' :: a2) ++ u) := by
        rw [List.cons_append]
        exact hcon
      have hlsplit : lt.length = a1.length + (a2.length + 1) := by
        rw [hsplit]
        simp
      have hlenv : litPgv.length = lt.length + 1 := by
        rw [hlb]
        simp
      rcases IsPre_append_cases hcon2 with hA | hB
      · have hl := length_le_of_IsPre hA
        simp only [List.length_cons] at hl
        have h25 : litPgAt.length = 25 := by decide
        have h11 : litPgv.length = 11 := by decide
        omega
      · have hdrop : litPgv.drop (a1.length + 1) = c' :: a2 := by
          rw [hlb, List.drop_succ_cons, hsplit, List.drop_left]
        rw [← hdrop] at hB
        have hfact : ∀ i, i < litPgv.length → 0 < i →
            isPreB (litPgv.drop i) litPgAt = false := by decide
        rw [← isPreB_iff] at hB
        rw [hfact (a1.length + 1) (by omega) (Nat.succ_pos _)] at hB
        cases hB
    have hsh' : ci1Shape (scanSub (matchVer litPgAt o) u) = none :=
      ci1_fail_transfer hwf2 hA2 (fun s m r t hf => matchVer_heads hf) hsh
    have hfinal : c :: scanSub (matchVer litPgAt o) cs =
        litPgv ++ scanSub (matchVer litPgAt o) u := by
      rw [hskip, hlb]
      rfl
    rw [hfinal, matchCi1_append]
    simp only [hsh']
  · have h4a := not_pre_preserved hwf2 litPgv litPgv_ne
      (fun s m r t hf => by
        obtain ⟨m3, _, hr, _, _⟩ := matchVer_some_inv hf
        rw [hr, List.length_append]
        have h25 : litPgAt.length = 25 := by decide
        have h11 : litPgv.length = 11 := by decide
        omega)
      (fun s m r t hf k hk1 hk2 hcon => by
        obtain ⟨m3, _, hr, _, _⟩ := matchVer_some_inv hf
        subst hr
        rcases IsPre_append_cases hcon with hA | hB
        · have hfact : ∀ i, i < litPgv.length → 0 < i →
              isPreB (litPgv.drop i) litPgAt = false := by decide
          rw [← isPreB_iff, hfact k hk2 hk1] at hA
          cases hA
        · have hl := length_le_of_IsPre hB
          rw [List.length_drop] at hl
          have h25 : litPgAt.length = 25 := by decide
          have h11 : litPgv.length = 11 := by decide
          omega)
      c cs hpre
    exact matchCi1_none_of_not_pre h4a

/-- Every output of the ci matrix pass is stable for that pass. -/
theorem ci_stable1 {n o : Str} (hn : DigitDot n) (ho : DigitDot o) :
    ∀ s, StableT (matchCi1 n o) (scanSub (matchCi1 n o) s) :=
  scan_stableT (matchCi1_wf n o) (fun _ => True)
    (fun _ _ _ _ _ => trivial)
    (fun s m r t h u _ => by
      obtain ⟨ws, body, _, hr, _, hws, _, _⟩ := matchCi1_some_inv h
      subst hr
      exact matchCi1_rematch hn ho hws u)
    (fun s m r t h => by
      obtain ⟨ws, body, _, hr, _, _, _, _⟩ := matchCi1_some_inv h
      rw [hr]
      intro hcon
      exact (by decide : (([']'] : Str) ≠ [])) (List.append_eq_nil.1 hcon).2)
    (fun u _ => trivial)
    matchCi1_h4_self

/-- Stability for the ci matrix pass survives the `postgres@` version pass. -/
theorem cross_preserve {n o : Str} (hn : DigitDot n) (ho : DigitDot o) :
    ∀ z, StableT (matchCi1 n o) z →
      StableT (matchCi1 n o) (scanSub (matchVer litPgAt o) z) := by
  have hwf2 := matchVer_wf litPgAt o litPgAt_ne
  have key : ∀ k (z : Str), z.length ≤ k → StableT (matchCi1 n o) z →
      StableT (matchCi1 n o) (scanSub (matchVer litPgAt o) z) := by
    intro k
    induction k with
    | zero =>
      intro z hz _
      have : z = [] := List.length_eq_zero.1 (by omega)
      subst this
      rw [scan_nil]
      exact StableT.nil
    | succ k ih =>
      intro z hz hst
      rcases stableT_inv hst with h0 | ⟨c, cs, he, hM1, hcs⟩ |
        ⟨r1, ds, he, hM1hit, hr1ne, hds⟩
      · subst h0
        rw [scan_nil]
        exact StableT.nil
      · subst he
        cases hM2 : matchVer litPgAt o (c :: cs) with
        | none =>
          rw [scan_cons_none hM2]
          refine StableT.skip c _ (matchCi1_h4_cross ho c cs hM1) ?_
          exact ih cs (by simp only [List.length_cons] at hz; omega) hcs
        | some v =>
          obtain ⟨m2, r2, t2⟩ := v
          rw [scan_cons_some hwf2 hM2]
          obtain ⟨hseq, hm2ne⟩ := hwf2 _ _ _ _ hM2
          obtain ⟨m3, hm2, hr2, _, hp3⟩ := matchVer_some_inv hM2
          have hm3dd : ∀ ch ∈ m3, isDD ch = true := P3Decomp_chars hp3
          have ht2 : StableT (matchCi1 n o) t2 := by
            apply stableT_append_elim m2 t2 (by rw [← hseq]; exact hst)
            intro a1 c' a2 hsplit
            exact no_ci1_in_pgAt hm3dd a1 c' a2 (by rw [← hm2]; exact hsplit) t2
          subst hr2
          apply stableT_append_skips
          · intro a1 c' a2 hsplit
            exact no_ci1_in_pgAt ho.2 a1 c' a2 hsplit _
          · refine ih t2 ?_ ht2
            have := length_rest_le hwf2 hM2
            simp only [List.length_cons] at hz
            omega
      · rw [he]
        obtain ⟨ws, body, hm1, hr1, _, hws1, _, _⟩ := matchCi1_some_inv hM1hit
        have hskip2 : scanSub (matchVer litPgAt o) (r1 ++ ds) =
            r1 ++ scanSub (matchVer litPgAt o) ds := by
          apply scan_append_skip
          intro a1 c' a2 hsplit
          exact no_pgAt_in_ci1block hn ho hws1 a1 c' a2 (by rw [← hr1]; exact hsplit) ds
        rw [hskip2]
        refine StableT.hit r1 _ ?_ hr1ne ?_
        · rw [hr1]
          exact matchCi1_rematch hn ho hws1 _
        · refine ih ds ?_ hds
          have hzl : z.length = r1.length + ds.length := by
            rw [he, List.length_append]
          have hr1pos : 0 < r1.length := List.length_pos.2 hr1ne
          omega
  exact fun z => key z.length z (le_refl _)

/-- The full ci.yml pass (matrix rewrite then `postgres@` rewrite), applied to
its own output, is the identity. -/
theorem ci_applied_twice {n o : Str} (hn : DigitDot n) (ht : Triple o) :
    ∀ x, scanSub (matchVer litPgAt o) (scanSub (matchCi1 n o)
        (scanSub (matchVer litPgAt o) (scanSub (matchCi1 n o) x))) =
      scanSub (matchVer litPgAt o) (scanSub (matchCi1 n o) x) := by
  intro x
  have ho := DigitDot_of_Triple ht
  have st1 := ci_stable1 hn ho x
  have st2 := cross_preserve hn ho _ st1
  have e1 := stableT_scan_eq (matchCi1_wf n o) st2
  rw [e1]
  exact matchVer_idem litPgAt_ne litPgAt_head litPgAt_nov ht _

/-! ## Idempotence of the four file rewrites (claim C1) -/

theorem update_ci_workflow_eq (versions : VDict) (content : Str) :
    update_ci_workflow versions content =
      (decide (scanSub (matchVer litPgAt (dget versions "oldest"))
          (scanSub (matchCi1 (dget versions "newest") (dget versions "oldest"))
            content) ≠ content),
        scanSub (matchVer litPgAt (dget versions "oldest"))
          (scanSub (matchCi1 (dget versions "newest") (dget versions "oldest"))
            content)) :=
  rfl

theorem update_docker_bake_eq (versions : VDict) (content : Str) :
    update_docker_bake versions content =
      (decide (scanSub (matchBake (dget versions "newest") (dget versions "oldest"))
          content ≠ content),
        scanSub (matchBake (dget versions "newest") (dget versions "oldest")) content) :=
  rfl

theorem update_mise_toml_eq (versions : VDict) (content : Str) :
    update_mise_toml versions content =
      (decide (scanSub (matchMise (dget versions "newest") (dget versions "oldest"))
          content ≠ content),
        scanSub (matchMise (dget versions "newest") (dget versions "oldest")) content) :=
  rfl

theorem update_dockerfiles_eq (versions : VDict) (files : List Str) :
    update_dockerfiles versions files =
      (files.any fun f =>
          decide (scanSub (matchVer litDock (dget versions "oldest")) f ≠ f),
        files.map (scanSub (matchVer litDock (dget versions "oldest")))) :=
  rfl

theorem map_scan_fixed {S : Str → Str} (hidem : ∀ x, S (S x) = S x) :
    ∀ fs : List Str, (fs.map S).map S = fs.map S := by
  intro fs
  induction fs with
  | nil => rfl
  | cons f fs ih => simp [hidem, ih]

theorem any_scan_false {S : Str → Str} (hidem : ∀ x, S (S x) = S x) :
    ∀ fs : List Str, ((fs.map S).any fun f => decide (S f ≠ f)) = false := by
  intro fs
  induction fs with
  | nil => rfl
  | cons f fs ih => simp [hidem, ih]

/-- C1 counterexample: with newest `9.9.9` and oldest `1.2.3.4`, applying the
ci.yml rewrite to its own output again reports a change and alters the
content (`postgres@1.2.3.4` becomes `postgres@1.2.3.4.4`), because the
`\d+\.\d+\.\d+` pattern re-matches a proper prefix of the inserted
four-component version.  This refutes C1 as stated. -/
theorem c1_counterexample :
    (update_ci_workflow (recDict "9.9.9".toList "1.2.3.4".toList)
        (update_ci_workflow (recDict "9.9.9".toList "1.2.3.4".toList)
          "postgres-binary:postgres@9.9.9".toList).2).1 = true ∧
    (update_ci_workflow (recDict "9.9.9".toList "1.2.3.4".toList)
        (update_ci_workflow (recDict "9.9.9".toList "1.2.3.4".toList)
          "postgres-binary:postgres@9.9.9".toList).2).2 ≠
      (update_ci_workflow (recDict "9.9.9".toList "1.2.3.4".toList)
        "postgres-binary:postgres@9.9.9".toList).2 := by
  decide

/-- C1 (amended): when the recommendation's newest version is a nonempty
string of digits and dots and its oldest version has exactly the shape
`\d+\.\d+\.\d+`, every File Patch Engine rewrite applied a second time to the
output of the first application reports "no change" (returns false) and
leaves the content byte-identical. -/
theorem c1_amended (versions : VDict)
    (hn : DigitDot (dget versions "newest"))
    (ht : Triple (dget versions "oldest")) :
    ∀ (ci bake mise : Str) (files : List Str),
      update_ci_workflow versions (update_ci_workflow versions ci).2 =
        (false, (update_ci_workflow versions ci).2) ∧
      update_docker_bake versions (update_docker_bake versions bake).2 =
        (false, (update_docker_bake versions bake).2) ∧
      update_mise_toml versions (update_mise_toml versions mise).2 =
        (false, (update_mise_toml versions mise).2) ∧
      update_dockerfiles versions (update_dockerfiles versions files).2 =
        (false, (update_dockerfiles versions files).2) := by
  intro ci bake mise files
  have ho := DigitDot_of_Triple ht
  refine ⟨?_, ?_, ?_, ?_⟩
  · have hsnd : (update_ci_workflow versions ci).2 =
        scanSub (matchVer litPgAt (dget versions "oldest"))
          (scanSub (matchCi1 (dget versions "newest") (dget versions "oldest")) ci) :=
      rfl
    rw [hsnd, update_ci_workflow_eq, ci_applied_twice hn ht ci]
    simp
  · have hsnd : (update_docker_bake versions bake).2 =
        scanSub (matchBake (dget versions "newest") (dget versions "oldest")) bake :=
      rfl
    rw [hsnd, update_docker_bake_eq, matchBake_idem hn ho bake]
    simp
  · have hsnd : (update_mise_toml versions mise).2 =
        scanSub (matchMise (dget versions "newest") (dget versions "oldest")) mise :=
      rfl
    rw [hsnd, update_mise_toml_eq, matchMise_idem hn ho mise]
    simp
  · have hidem := matchVer_idem litDock_ne litDock_head litDock_nov ht
    have hsnd : (update_dockerfiles versions files).2 =
        files.map (scanSub (matchVer litDock (dget versions "oldest"))) :=
      rfl
    rw [hsnd, update_dockerfiles_eq, any_scan_false hidem files,
      map_scan_fixed hidem files]

/-! ## Element order in the rewritten files (claim C10) -/

/-- C10: the CI matrix is written newest first then oldest, the mise.toml
VERSIONS list oldest first then newest, and the docker-bake block lists the
oldest major's key line before the newest major's key line.  Shown by running
each rewrite on a canonical template and reading off the rewritten text. -/
theorem c10_element_order (n o : Str) (hn : DigitDot n) (ho : DigitDot o) :
    (update_ci_workflow (recDict n o) "pg_version: [\"9.9.9\"]".toList).2 =
      "pg_version: [\"".toList ++ n ++ "\", \"".toList ++ o ++ "\"]".toList ∧
    (update_mise_toml (recDict n o) "VERSIONS=(\"1.1\" \"2.2\")".toList).2 =
      "VERSIONS=(\"".toList ++ o ++ "\" \"".toList ++ n ++ "\")".toList ∧
    (update_docker_bake (recDict n o)
        "variable \"PG_VERSIONS\" \x7b\n  default = \x7b\n    pg9 = \"9\"\n  \x7d\n\x7d".toList).2 =
      "variable \"PG_VERSIONS\" \x7b\n  default = \x7b\n    pg".toList ++ majorPart o ++
        " = \"".toList ++ o ++ "\"\n    pg".toList ++ majorPart n ++
        " = \"".toList ++ n ++ "\"\n  \x7d\n\x7d".toList := by
  have hdn : dget (recDict n o) "newest" = n := rfl
  have hdo : dget (recDict n o) "oldest" = o := rfl
  refine ⟨?_, ?_, ?_⟩
  · have hsnd : (update_ci_workflow (recDict n o) "pg_version: [\"9.9.9\"]".toList).2 =
        scanSub (matchVer litPgAt (dget (recDict n o) "oldest"))
          (scanSub (matchCi1 (dget (recDict n o) "newest")
            (dget (recDict n o) "oldest")) "pg_version: [\"9.9.9\"]".toList) := rfl
    rw [hsnd, hdn, hdo]
    have hsplit : ("pg_version: [\"9.9.9\"]".toList : Str) =
        litPgv ++ " [\"9.9.9\"]".toList := by decide
    have hshape : ci1Shape " [\"9.9.9\"]".toList =
        some ([' '], "\"9.9.9\"".toList, []) := by decide
    have hM : matchCi1 n o ('p' :: "g_version: [\"9.9.9\"]".toList) =
        some (litPgv ++ [' '] ++ '[' :: "\"9.9.9\"".toList ++ [']'],
              litPgv ++ [' '] ++ '[' :: vstr n o ++ [']'], []) := by
      rw [(by decide : ('p' :: "g_version: [\"9.9.9\"]".toList : Str) =
        litPgv ++ " [\"9.9.9\"]".toList), matchCi1_append, hshape]
    have hscan1 : scanSub (matchCi1 n o) ("pg_version: [\"9.9.9\"]".toList) =
        litPgv ++ [' '] ++ '[' :: vstr n o ++ [']'] := by
      rw [(by decide : ("pg_version: [\"9.9.9\"]".toList : Str) =
          'p' :: "g_version: [\"9.9.9\"]".toList),
        scan_cons_some (matchCi1_wf n o) hM, scan_nil, List.append_nil]
    rw [hscan1]
    have hscan2 : scanSub (matchVer litPgAt o)
        (litPgv ++ [' '] ++ '[' :: vstr n o ++ [']']) =
        litPgv ++ [' '] ++ '[' :: vstr n o ++ [']'] := by
      apply scan_eq_self_of_no_fire
      intro a b hab hb
      apply matchVer_none_of_not_pre
      intro hcon
      have hat : '@' ∈ b := mem_of_IsPre hcon (by decide : '@' ∈ litPgAt)
      have hmem : '@' ∈ litPgv ++ [' '] ++ '[' :: vstr n o ++ [']'] := by
        rw [hab]
        exact List.mem_append_right a hat
      exact at_not_in_r1 hn ho (by decide) hmem
    rw [hscan2]
    rw [(by decide : ("pg_version: [\"".toList : Str) = litPgv ++ (' ' :: '[' :: '"' :: [])),
      (by decide : ("\", \"".toList : Str) = '"' :: ',' :: ' ' :: '"' :: []),
      (by decide : ("\"]".toList : Str) = '"' :: ']' :: [])]
    unfold vstr
    simp
  · have hsnd : (update_mise_toml (recDict n o) "VERSIONS=(\"1.1\" \"2.2\")".toList).2 =
        scanSub (matchMise (dget (recDict n o) "newest")
          (dget (recDict n o) "oldest")) "VERSIONS=(\"1.1\" \"2.2\")".toList := rfl
    rw [hsnd, hdn, hdo]
    have hshape : miseShape "\"1.1\" \"2.2\")".toList =
        some ("\"1.1\" \"2.2\")".toList, []) := by decide
    have hM : matchMise n o ('V' :: "ERSIONS=(\"1.1\" \"2.2\")".toList) =
        some (litMise ++ "\"1.1\" \"2.2\")".toList, miseRepl n o, []) := by
      rw [(by decide : ('V' :: "ERSIONS=(\"1.1\" \"2.2\")".toList : Str) =
        litMise ++ "\"1.1\" \"2.2\")".toList), matchMise_append, hshape]
    have hscan : scanSub (matchMise n o) ("VERSIONS=(\"1.1\" \"2.2\")".toList) =
        miseRepl n o := by
      rw [(by decide : ("VERSIONS=(\"1.1\" \"2.2\")".toList : Str) =
          'V' :: "ERSIONS=(\"1.1\" \"2.2\")".toList),
        scan_cons_some (matchMise_wf n o) hM, scan_nil, List.append_nil]
    rw [hscan]
    rw [(by decide : ("VERSIONS=(\"".toList : Str) = litMise ++ ('"' :: [])),
      (by decide : ("\" \"".toList : Str) = '"' :: ' ' :: '"' :: []),
      (by decide : ("\")".toList : Str) = '"' :: ')' :: [])]
    unfold miseRepl
    simp
  · have hsnd : (update_docker_bake (recDict n o)
        "variable \"PG_VERSIONS\" \x7b\n  default = \x7b\n    pg9 = \"9\"\n  \x7d\n\x7d".toList).2 =
        scanSub (matchBake (dget (recDict n o) "newest") (dget (recDict n o) "oldest"))
          "variable \"PG_VERSIONS\" \x7b\n  default = \x7b\n    pg9 = \"9\"\n  \x7d\n\x7d".toList := rfl
    rw [hsnd, hdn, hdo]
    have hshape : bakeShape "\n  default = \x7b\n    pg9 = \"9\"\n  \x7d\n\x7d".toList =
        some ("\n  default = \x7b\n    pg9 = \"9\"\n  ".toList, ['\n'], []) := by decide
    have hM : matchBake n o
        ('v' :: "ariable \"PG_VERSIONS\" \x7b\n  default = \x7b\n    pg9 = \"9\"\n  \x7d\n\x7d".toList) =
        some (litBake ++ "\n  default = \x7b\n    pg9 = \"9\"\n  ".toList ++
            '}' :: ['\n'] ++ ['}'], bakeBlock n o, []) := by
      rw [(by decide :
        ('v' :: "ariable \"PG_VERSIONS\" \x7b\n  default = \x7b\n    pg9 = \"9\"\n  \x7d\n\x7d".toList : Str) =
        litBake ++ "\n  default = \x7b\n    pg9 = \"9\"\n  \x7d\n\x7d".toList),
        matchBake_append, hshape]
    have hscan : scanSub (matchBake n o)
        ("variable \"PG_VERSIONS\" \x7b\n  default = \x7b\n    pg9 = \"9\"\n  \x7d\n\x7d".toList) =
        bakeBlock n o := by
      rw [(by decide :
          ("variable \"PG_VERSIONS\" \x7b\n  default = \x7b\n    pg9 = \"9\"\n  \x7d\n\x7d".toList : Str) =
          'v' :: "ariable \"PG_VERSIONS\" \x7b\n  default = \x7b\n    pg9 = \"9\"\n  \x7d\n\x7d".toList),
        scan_cons_some (matchBake_wf n o) hM, scan_nil, List.append_nil]
    rw [hscan]
    rfl

/-- Witness for C10 at the recommendation 18.2.0 / 14.19.0. -/
theorem c10_element_order_witness :
    DigitDot ("18.2.0".toList : Str) ∧ DigitDot ("14.19.0".toList : Str) ∧
    ((update_ci_workflow (recDict "18.2.0".toList "14.19.0".toList)
        "pg_version: [\"9.9.9\"]".toList).2 =
      "pg_version: [\"".toList ++ "18.2.0".toList ++ "\", \"".toList ++
        "14.19.0".toList ++ "\"]".toList ∧
    (update_mise_toml (recDict "18.2.0".toList "14.19.0".toList)
        "VERSIONS=(\"1.1\" \"2.2\")".toList).2 =
      "VERSIONS=(\"".toList ++ "14.19.0".toList ++ "\" \"".toList ++
        "18.2.0".toList ++ "\")".toList ∧
    (update_docker_bake (recDict "18.2.0".toList "14.19.0".toList)
        "variable \"PG_VERSIONS\" \x7b\n  default = \x7b\n    pg9 = \"9\"\n  \x7d\n\x7d".toList).2 =
      "variable \"PG_VERSIONS\" \x7b\n  default = \x7b\n    pg".toList ++
        majorPart "14.19.0".toList ++ " = \"".toList ++ "14.19.0".toList ++
        "\"\n    pg".toList ++ majorPart "18.2.0".toList ++ " = \"".toList ++
        "18.2.0".toList ++ "\"\n  \x7d\n\x7d".toList) :=
  ⟨by unfold DigitDot; decide, by unfold DigitDot; decide,
    c10_element_order "18.2.0".toList "14.19.0".toList
      (by unfold DigitDot; decide) (by unfold DigitDot; decide)⟩

/-- Witness for the amended C1 at the recommendation 18.2.0 / 14.19.0. -/
theorem c1_amended_witness :
    DigitDot (dget (recDict "18.2.0".toList "14.19.0".toList) "newest") ∧
    Triple (dget (recDict "18.2.0".toList "14.19.0".toList) "oldest") ∧
    (update_ci_workflow (recDict "18.2.0".toList "14.19.0".toList)
        (update_ci_workflow (recDict "18.2.0".toList "14.19.0".toList) "x".toList).2 =
      (false, (update_ci_workflow (recDict "18.2.0".toList "14.19.0".toList)
        "x".toList).2) ∧
    update_docker_bake (recDict "18.2.0".toList "14.19.0".toList)
        (update_docker_bake (recDict "18.2.0".toList "14.19.0".toList) "y".toList).2 =
      (false, (update_docker_bake (recDict "18.2.0".toList "14.19.0".toList)
        "y".toList).2) ∧
    update_mise_toml (recDict "18.2.0".toList "14.19.0".toList)
        (update_mise_toml (recDict "18.2.0".toList "14.19.0".toList) "z".toList).2 =
      (false, (update_mise_toml (recDict "18.2.0".toList "14.19.0".toList)
        "z".toList).2) ∧
    update_dockerfiles (recDict "18.2.0".toList "14.19.0".toList)
        (update_dockerfiles (recDict "18.2.0".toList "14.19.0".toList)
          ["w".toList]).2 =
      (false, (update_dockerfiles (recDict "18.2.0".toList "14.19.0".toList)
        ["w".toList]).2)) :=
  ⟨by unfold DigitDot; decide, by unfold Triple; decide,
    c1_amended (recDict "18.2.0".toList "14.19.0".toList)
      (by unfold DigitDot; decide) (by unfold Triple; decide)
      "x".toList "y".toList "z".toList ["w".toList]⟩

end PgUpdate
